import Mathlib

/-!
Sharechain acceptance engine of `p2pool-sim.cc`.

A shallow embedding of the classes `Share` and `Sharechain` of
`src/p2pool-sim.cc` and of the share production, wire format and reception of
`P2PoolApp`, with theorems about `Sharechain::AddShare`,
`P2PoolApp::GenerateShare`, `SerializeShare`, `DeserializeShare` and
`HandleReceive`.

Modelling choices:

* `std::string` is `String`; `s.empty()` is `s = ""`.
* `uint32_t` values are natural numbers; every `uint32_t` operation of the
  source (`+ 1`, `-`, `++`) is taken modulo `2^32` explicitly.
* `double timestamp` is never inspected by the chain; it is carried as a value
  of an arbitrary type `τ`.
* `std::map<std::string, Share>` is the list of its entries in iteration
  order, that is in strictly ascending key order.  `find` and `assign`
  (`operator[]` followed by assignment) are total functions on lists; `Sorted`
  states the ordering and `assign` preserves it.
* The stream output of a `double` and `std::stod` are parameters (`fixed6`,
  `fmt`, `stod`); `std::stoi` and `std::getline` are written out as the C++
  standard describes them.  A thrown exception is the result `none`.
* A message is the string of its bytes; the scenarios use ASCII text.
-/

namespace P2Pool

/-! `uint32_t` arithmetic -/

/-- Addition of two `uint32_t` values. -/
def u32add (a b : Nat) : Nat := (a + b) % 4294967296

/-- Subtraction of two `uint32_t` values: the difference taken modulo `2^32`. -/
def u32sub (a b : Nat) : Nat := (a + (4294967296 - b % 4294967296)) % 4294967296

/-! `class Share` -/

/-- The class `Share` (source lines 19-32). -/
structure Share (τ : Type) where
  hash : String
  height : Nat
  timestamp : τ
  parentHash : String
  uncles : List String
deriving DecidableEq, Repr

/-! `std::map<std::string, V>` -/

/-- The key comparison of the map, `std::less<std::string>`: lexicographic
order on the characters of the two strings. -/
def keyLess (a b : String) : Prop := a.data < b.data

instance keyLessDecidable (a b : String) : Decidable (keyLess a b) :=
  inferInstanceAs (Decidable (a.data < b.data))

/-- Lookup `m.find(k)`: the value stored under `k`, `none` for `m.end()`. -/
def find {V : Type} : List (String × V) → String → Option V
  | [], _ => none
  | (k1, v1) :: rest, k => if k = k1 then some v1 else find rest k

/-- The statement `m[k] = v`: the entry of `k` is overwritten when there is one,
and a new entry is put at its place in ascending key order otherwise. -/
def assign {V : Type} : List (String × V) → String → V → List (String × V)
  | [], k, v => [(k, v)]
  | (k1, v1) :: rest, k, v =>
    if keyLess k k1 then (k, v) :: (k1, v1) :: rest
    else if k = k1 then (k, v) :: rest
    else (k1, v1) :: assign rest k v

/-- The keys of a map, in iteration order. -/
def keys {V : Type} (m : List (String × V)) : List String := m.map Prod.fst

/-- Representation invariant of `std::map`: keys strictly ascending. -/
def Sorted {V : Type} (m : List (String × V)) : Prop :=
  (keys m).Pairwise keyLess

/-! `class Sharechain` -/

/-- The data members of `Sharechain` (source lines 37-39). -/
structure Sharechain (τ : Type) where
  shares_ : List (String × Share τ)
  uncleCount_ : Nat
  orphanCount_ : Nat
deriving DecidableEq, Repr

/-- The constructor `Sharechain()` (source line 41). -/
def Sharechain.empty (τ : Type) : Sharechain τ := ⟨[], 0, 0⟩

/-- `Sharechain::IsUncleValid` (source lines 74-81). -/
def IsUncleValid {τ : Type} (shares_ : List (String × Share τ)) (uncleHash : String)
    (currentHeight : Nat) : Bool :=
  match find shares_ uncleHash with
  | some u => decide (u32sub currentHeight u.height ≤ 7)
  | none => false

/-- The loop over `share.uncles` of `AddShare` (source lines 55-60), run on
the map that already holds the new share; the accumulator is `uncleCount_`. -/
def countUncles {τ : Type} (shares_ : List (String × Share τ)) (height : Nat) :
    List String → Nat → Nat
  | [], n => n
  | uncleHash :: rest, n =>
    if (find shares_ uncleHash).isSome && IsUncleValid shares_ uncleHash height then
      countUncles shares_ height rest (u32add n 1)
    else
      countUncles shares_ height rest n

/-- The value of `shares_[share.parentHash].height + 1` on source line 51.  The
expression is evaluated only when the key is present (the guard of line 50), so
`operator[]` never inserts; the absent case is the default `Share()` of height 0. -/
def parentHeightPlusOne {τ : Type} (shares_ : List (String × Share τ)) (parentHash : String) :
    Nat :=
  match find shares_ parentHash with
  | some p => u32add p.height 1
  | none => u32add 0 1

/-- `Sharechain::AddShare` (source lines 43-67). -/
def AddShare {τ : Type} (c : Sharechain τ) (share : Share τ) (_currentTime : τ) :
    Sharechain τ :=
  if (find c.shares_ share.hash).isSome then
    c
  else if share.parentHash = "" ∨ (find c.shares_ share.parentHash).isSome then
    let expectedHeight :=
      if share.parentHash = "" then 0 else parentHeightPlusOne c.shares_ share.parentHash
    if share.height = expectedHeight then
      let shares1 := assign c.shares_ share.hash share
      ⟨shares1, countUncles shares1 share.height share.uncles c.uncleCount_, c.orphanCount_⟩
    else
      ⟨c.shares_, c.uncleCount_, u32add c.orphanCount_ 1⟩
  else
    ⟨c.shares_, c.uncleCount_, u32add c.orphanCount_ 1⟩

/-- `GetTotalShares`: `shares_.size()` returned as a `uint32_t` (source line 71). -/
def GetTotalShares {τ : Type} (c : Sharechain τ) : Nat := c.shares_.length % 4294967296

/-- A finite sequence of `AddShare` calls, each with its share and its time. -/
def addAll {τ : Type} (c : Sharechain τ) : List (Share τ × τ) → Sharechain τ
  | [] => c
  | (s, t) :: rest => addAll (AddShare c s t) rest

/-- States reachable from the empty chain by `AddShare` calls. -/
def Reachable {τ : Type} (c : Sharechain τ) : Prop :=
  ∃ calls : List (Share τ × τ), c = addAll (Sharechain.empty τ) calls

/-- The share is newly stored by the call: `AddShare` accepted it. -/
def Accepted {τ : Type} (c : Sharechain τ) (share : Share τ) (t : τ) : Prop :=
  share.hash ∉ keys c.shares_ ∧ share.hash ∈ keys (AddShare c share t).shares_

/-! Scenario data -/

/-- Share `s0`: height 0, no parent. -/
def s0 : Share Nat := ⟨"s0", 0, 0, "", []⟩

/-- Share `s1`: height 1, parent `s0`. -/
def s1 : Share Nat := ⟨"s1", 1, 1, "s0", []⟩

/-- Share `s2`: height 2, parent `s1`, uncle `s0`. -/
def s2 : Share Nat := ⟨"s2", 2, 2, "s1", ["s0"]⟩

/-- The chain holding only `s0`. -/
def chain0 : Sharechain Nat := AddShare (Sharechain.empty Nat) s0 0

/-- The chain holding `s0` and `s1`. -/
def chain01 : Sharechain Nat := AddShare chain0 s1 1

/-- The test of source lines 50-52 that decides between storing the share and
counting it as an orphan, once the share is known not to be a duplicate. -/
def ParentAndHeightOk {τ : Type} (shares_ : List (String × Share τ)) (share : Share τ) : Prop :=
  (share.parentHash = "" ∨ (find shares_ share.parentHash).isSome = true) ∧
    share.height =
      (if share.parentHash = "" then 0 else parentHeightPlusOne shares_ share.parentHash)

/-- A share that duplicates the hash of `s0` and differs in every other field. -/
def dupOfS0 : Share Nat := ⟨"s0", 5, 9, "zz", ["q"]⟩

/-- A share with parent `s0` and the wrong height 5. -/
def s1WrongHeight : Share Nat := ⟨"s1", 5, 1, "s0", []⟩

/-- A root share whose hash is the empty string. -/
def emptyHashShare : Share Nat := ⟨"", 0, 0, "", []⟩

/-- The chain holding only the share whose hash is the empty string. -/
def chainEmptyKey : Sharechain Nat := AddShare (Sharechain.empty Nat) emptyHashShare 0

/-- A root share `a`: height 0 and empty `parentHash`. -/
def rootA : Share Nat := ⟨"a", 0, 1, "", []⟩

/-- A share with the hash of `s0` and the unknown, non-empty parent `zz`. -/
def dupWithUnknownParent : Share Nat := ⟨"s0", 1, 5, "zz", []⟩

/-- A share with a fresh hash and the unknown, non-empty parent `zz`. -/
def unknownParentShare : Share Nat := ⟨"s9", 1, 5, "zz", []⟩

/-- The test that C6 words for one uncle entry `h` of a share at height
`height`: `h` is a key of `shares_` and its stored height `u` satisfies
`height - u <= 7` as integers. -/
def claimedUncleTest {τ : Type} (shares_ : List (String × Share τ)) (height : Nat)
    (h : String) : Bool :=
  match find shares_ h with
  | some u => decide ((height : Int) - (u.height : Int) ≤ 7)
  | none => false

/-- The test the code applies to one uncle entry `h` (source lines 56-57 with
line 78): `h` is a key of `shares_` and its stored height `u` satisfies
`height - u <= 7`, the difference being the `uint32_t` one, modulo `2^32`. -/
def uncleTest {τ : Type} (shares_ : List (String × Share τ)) (height : Nat)
    (h : String) : Bool :=
  match find shares_ h with
  | some u => decide ((height + (4294967296 - u.height % 4294967296)) % 4294967296 ≤ 7)
  | none => false

/-- A root share (height 0, no parent) that lists `s1`, stored at height 1, as
its uncle. -/
def lateRoot : Share Nat := ⟨"r", 0, 2, "", ["s1"]⟩

/-- A chain of eight shares `h0` .. `h7` at heights 0 .. 7, each the child of
the one before. -/
def chainH07 : Sharechain Nat :=
  addAll (Sharechain.empty Nat)
    [(⟨"h0", 0, 0, "", []⟩, 0), (⟨"h1", 1, 1, "h0", []⟩, 1), (⟨"h2", 2, 2, "h1", []⟩, 2),
     (⟨"h3", 3, 3, "h2", []⟩, 3), (⟨"h4", 4, 4, "h3", []⟩, 4), (⟨"h5", 5, 5, "h4", []⟩, 5),
     (⟨"h6", 6, 6, "h5", []⟩, 6), (⟨"h7", 7, 7, "h6", []⟩, 7)]

/-- A share at height 8 whose only uncle `h1` is stored at height 1. -/
def h8UncleH1 : Share Nat := ⟨"h8", 8, 8, "h7", ["h1"]⟩

/-- A share at height 8 whose only uncle `h0` is stored at height 0. -/
def h8UncleH0 : Share Nat := ⟨"h8", 8, 8, "h7", ["h0"]⟩

/-- The share `s2` with the uncle list `[s1, zz, s0]` in place of `[s0]`. -/
def s2OtherUncles : Share Nat := ⟨"s2", 2, 2, "s1", ["s1", "zz", "s0"]⟩

/-- The parent-link property of one stored share `v` in the map `shares_`:
either `v` has an empty `parentHash` and height 0, or its `parentHash` is a key
of `shares_` whose stored share `p` has `v.height = p.height + 1` as a
`uint32_t`. -/
def ParentLinked {τ : Type} (shares_ : List (String × Share τ)) (v : Share τ) : Prop :=
  (v.parentHash = "" ∧ v.height = 0) ∨
    (v.parentHash ∈ keys shares_ ∧
      ∃ p, find shares_ v.parentHash = some p ∧ v.height = (p.height + 1) % 4294967296 ∧
        (p.height < 4294967295 → v.height = p.height + 1))

/-! `class P2PoolApp`: share production -/

/-- The data members of `P2PoolApp` that share production reads and writes
(source lines 107, 251-252); sockets, peers and the random variables belong to
the network engine. -/
structure P2PoolApp (τ : Type) where
  nodeId_ : Nat
  shareCount_ : Nat
  sharechain_ : Sharechain τ
deriving DecidableEq, Repr

/-- The tip scan of `GenerateShare` (source lines 134-139): the loop over the
map in iteration order, carrying `maxHeight` and `parentHash`. -/
def tipScan {τ : Type} : List (String × Share τ) → Nat → String → Nat × String
  | [], maxHeight, parentHash => (maxHeight, parentHash)
  | (k, v) :: rest, maxHeight, parentHash =>
    if v.height > maxHeight then tipScan rest v.height k
    else tipScan rest maxHeight parentHash

/-- The flag `alreadyIncluded` of source lines 154-163: some stored share lists
the key among its uncles. -/
def alreadyIncluded {τ : Type} (shares_ : List (String × Share τ)) (key : String) : Bool :=
  shares_.any (fun sharePair => sharePair.2.uncles.any (fun uncleHash => uncleHash == key))

/-- The uncle scan of `GenerateShare` (source lines 151-170): the loop over the
map in iteration order, carrying the vector `uncles`; it stops once two uncles
are collected. -/
def uncleScan {τ : Type} (shares_ : List (String × Share τ)) (height : Nat) :
    List (String × Share τ) → List String → List String
  | [], uncles => uncles
  | (k, v) :: rest, uncles =>
    if v.height < height ∧ u32sub height v.height ≤ 7 then
      if alreadyIncluded shares_ k then uncleScan shares_ height rest uncles
      else if (uncles ++ [k]).length ≥ 2 then uncles ++ [k]
      else uncleScan shares_ height rest (uncles ++ [k])
    else uncleScan shares_ height rest uncles

/-- The parent hash chosen by `GenerateShare` (source lines 128-141). -/
def tipParentHash {τ : Type} (shares_ : List (String × Share τ)) : String :=
  if shares_.isEmpty then "" else (tipScan shares_ 0 "").2

/-- The height chosen by `GenerateShare` (source lines 129-141). -/
def tipHeight {τ : Type} (shares_ : List (String × Share τ)) : Nat :=
  if shares_.isEmpty then 0 else u32add (tipScan shares_ 0 "").1 1

/-- The hash text of source lines 144-147.  The parameter `fixed6` is the
stream output of a `double` under `std::fixed` and `std::setprecision(6)`. -/
def generatedHash {τ : Type} (fixed6 : τ → String) (nodeId_ shareCount_ : Nat) (now : τ) :
    String :=
  "share-" ++ toString nodeId_ ++ "-" ++ toString shareCount_ ++ "-" ++ fixed6 now

/-- The share `newShare` built by `GenerateShare` (source lines 125-174) at
simulated time `now`. -/
def builtShare {τ : Type} (fixed6 : τ → String) (app : P2PoolApp τ) (now : τ) : Share τ :=
  ⟨generatedHash fixed6 app.nodeId_ (u32add app.shareCount_ 1) now,
    tipHeight app.sharechain_.shares_, now, tipParentHash app.sharechain_.shares_,
    uncleScan app.sharechain_.shares_ (tipHeight app.sharechain_.shares_)
      app.sharechain_.shares_ []⟩

/-- `P2PoolApp::GenerateShare` (source lines 124-187) at simulated time `now`:
the counter is incremented and the built share is added to the local chain.
Broadcasting and rescheduling are left to the network engine. -/
def GenerateShare {τ : Type} (fixed6 : τ → String) (app : P2PoolApp τ) (now : τ) :
    P2PoolApp τ :=
  ⟨app.nodeId_, u32add app.shareCount_ 1,
    AddShare app.sharechain_ (builtShare fixed6 app now) now⟩

/-- Consecutive `GenerateShare` events of one node at the given times, with no
reception in between: the final node state and the shares built, in order. -/
def generateAll {τ : Type} (fixed6 : τ → String) (app : P2PoolApp τ) :
    List τ → P2PoolApp τ × List (Share τ)
  | [] => (app, [])
  | now :: later =>
    ((generateAll fixed6 (GenerateShare fixed6 app now) later).1,
      builtShare fixed6 app now :: (generateAll fixed6 (GenerateShare fixed6 app now) later).2)

/-- A node at start-up: no share produced, empty chain. -/
def P2PoolApp.start (τ : Type) (nodeId : Nat) : P2PoolApp τ := ⟨nodeId, 0, Sharechain.empty τ⟩

/-- The text of a whole number of seconds `n` under `std::fixed` and
`std::setprecision(6)`, used for the scenarios: `2` is written `2.000000`. -/
def fixedWhole (n : Nat) : String := toString n ++ ".000000"

/-- Share `s3`: height 3, parent `s2`, uncle `s0`. -/
def s3 : Share Nat := ⟨"s3", 3, 3, "s2", ["s0"]⟩

/-- A root share `b`: height 0 and empty `parentHash`. -/
def rootB : Share Nat := ⟨"b", 0, 2, "", []⟩

/-- The uncle candidates as C16 words them: a stored share with height below
`H`, with `H - height <= 7`, whose hash occurs in the uncle list of no stored
share. -/
def uncleCandidate {τ : Type} (shares_ : List (String × Share τ)) (H : Nat)
    (e : String × Share τ) : Bool :=
  decide (e.2.height < H ∧ H - e.2.height ≤ 7) &&
    !(shares_.any (fun sp => decide (e.2.hash ∈ sp.2.uncles)))

/-- The node 1 after its first production event, at time 1: its chain holds the
one share it built, at height 0. -/
def nodeAfterFirst : P2PoolApp Nat := GenerateShare fixedWhole (P2PoolApp.start Nat 1) 1

/-- A node whose chain holds only `s0`. -/
def nodeWithS0 : P2PoolApp Nat := ⟨1, 1, chain0⟩

/-- Three shares at height 0 and one at height 1; none is listed as an uncle. -/
def chainFourShares : Sharechain Nat :=
  addAll (Sharechain.empty Nat)
    [(⟨"a", 0, 0, "", []⟩, 0), (⟨"b", 0, 0, "", []⟩, 0), (⟨"c", 0, 0, "", []⟩, 0),
     (⟨"d", 1, 1, "a", []⟩, 1)]

/-- The test the uncle scan applies to one map entry (source lines 152 and
154-165): the height test in `uint32_t` arithmetic, and the key is in no uncle
list of the chain. -/
def scanTest {τ : Type} (shares_ : List (String × Share τ)) (height : Nat)
    (e : String × Share τ) : Bool :=
  decide (e.2.height < height ∧ u32sub height e.2.height ≤ 7) && !alreadyIncluded shares_ e.1

/-- A node whose chain is `chainFourShares`. -/
def nodeFourShares : P2PoolApp Nat := ⟨1, 4, chainFourShares⟩

/-! The wire format: `SerializeShare`, `DeserializeShare`, `HandleReceive` -/

/-- The state of the `std::stringstream` that `DeserializeShare` reads: the
characters not yet extracted, and `good()` (neither `eofbit` nor `failbit`). -/
structure IStream where
  rest : List Char
  good : Bool
deriving DecidableEq, Repr

/-- The characters before the first delimiter, and the characters after it
when there is one. -/
def untilDelim : List Char → List Char × Option (List Char)
  | [] => ([], none)
  | c :: cs =>
    if c = '|' then ([], some cs) else (c :: (untilDelim cs).1, (untilDelim cs).2)

/-- The call `std::getline(ss, str, delim)` with the delimiter of the wire
format: the new stream state, the new value of `str`, and the stream converted
to `bool` (not `fail()`).  On a stream that is not `good()` the sentry fails:
`failbit` is set and `str` is left as it was.  Otherwise `str` is erased and
filled up to the delimiter, which is extracted and dropped; when the end is
reached first, `eofbit` is set, and `failbit` too if nothing was extracted. -/
def getline (ss : IStream) (str : String) : IStream × String × Bool :=
  if ss.good then
    match untilDelim ss.rest with
    | (field, some after) => (⟨after, true⟩, String.mk field, true)
    | (field, none) => (⟨[], false⟩, String.mk field, !field.isEmpty)
  else (ss, str, false)

/-- The white space that `std::stoi` skips: space and the codes 9 to 13. -/
def isSpace (c : Char) : Bool := c.toNat = 32 || (9 ≤ c.toNat && c.toNat ≤ 13)

/-- The value of a list of decimal digits. -/
def digitsValue (ds : List Char) : Nat := ds.foldl (fun n c => 10 * n + (c.toNat - 48)) 0

/-- The library function `std::stoi(token)` in base 10: leading white space is
skipped, an optional sign and the longest run of digits are read, and what
follows is ignored.  The result is `none` where `stoi` throws:
`std::invalid_argument` when no digit is read, `std::out_of_range` when the
value is not an `int`. -/
def stoi (token : String) : Option Int :=
  let body := token.data.dropWhile isSpace
  let unsigned := if body.head? = some '-' ∨ body.head? = some '+' then body.tail else body
  let digits := unsigned.takeWhile Char.isDigit
  if digits = [] then none
  else
    let v : Int := if body.head? = some '-' then -(digitsValue digits : Int)
      else (digitsValue digits : Int)
    if v < -2147483648 ∨ 2147483647 < v then none else some v

/-- The conversion of an `int` to `uint32_t` (source line 239). -/
def toU32 (v : Int) : Nat := (v % 4294967296).toNat

/-- `P2PoolApp::SerializeShare` (source lines 221-228).  The parameter `fmt` is
the stream output of a `double` with the default format. -/
def SerializeShare {τ : Type} (fmt : τ → String) (share : Share τ) : String :=
  share.uncles.foldl (fun ss uncle => ss ++ "|" ++ uncle)
    (share.hash ++ "|" ++ toString share.height ++ "|" ++ fmt share.timestamp ++ "|" ++
      share.parentHash)

/-- The loop `while (std::getline(ss, token, delim)) uncles.push_back(token)`
(source lines 244-246).  The first argument bounds the number of iterations;
`readUncles_eq` shows that the bound used by `DeserializeShare` is never
reached. -/
def readUncles : Nat → IStream → String → List String → List String
  | 0, _, _, uncles => uncles
  | fuel + 1, ss, token, uncles =>
    if (getline ss token).2.2 then
      readUncles fuel (getline ss token).1 (getline ss token).2.1
        (uncles ++ [(getline ss token).2.1])
    else uncles

/-- `P2PoolApp::DeserializeShare` (source lines 230-249).  The parameter `stod`
is the library function `std::stod`; the result is `none` when `std::stoi` or
`std::stod` throws. -/
def DeserializeShare {τ : Type} (stod : String → Option τ) (data : String) :
    Option (Share τ) :=
  let ss0 : IStream := ⟨data.data, true⟩
  let r1 := getline ss0 ""
  let r2 := getline r1.1 ""
  match stoi r2.2.1 with
  | none => none
  | some h =>
    let r3 := getline r2.1 r2.2.1
    match stod r3.2.1 with
    | none => none
    | some timestamp =>
      let r4 := getline r3.1 ""
      some ⟨r1.2.1, toU32 h, timestamp, r4.2.1,
        readUncles (r4.1.rest.length + 2) r4.1 r3.2.1 []⟩

/-- The loop of `P2PoolApp::HandleReceive` (source lines 204-219) over the
packets queued on the socket, at simulated time `now`: each packet is cut to
1024 bytes, decoded and added.  The second component tells whether an exception
of `DeserializeShare` left the function, which has no handler; the packets
after that one are not handled. -/
def HandleReceive {τ : Type} (stod : String → Option τ) (c : Sharechain τ) (now : τ) :
    List String → Sharechain τ × Bool
  | [] => (c, false)
  | packet :: queue =>
    match DeserializeShare stod (String.mk (packet.data.take 1024)) with
    | none => (c, true)
    | some receivedShare => HandleReceive stod (AddShare c receivedShare now) now queue

/-- The fields of a message: the pieces between the delimiters. -/
def splitFields : List Char → List (List Char)
  | [] => [[]]
  | c :: cs =>
    if c = '|' then [] :: splitFields cs
    else
      match splitFields cs with
      | f :: fs => (c :: f) :: fs
      | [] => [[c]]

/-- A list of fields without its last field when that one is empty. -/
def dropTrailingEmpty (fs : List String) : List String :=
  if fs.getLast? = some "" then fs.dropLast else fs

/-- Decoding described on the fields of the message: field 0 is the hash; field
1 (empty when missing) is read by `std::stoi`; field 2 (field 1 again when
missing) is read by `std::stod`; field 3 (empty when missing) is the parent
hash; the fields from the fifth on are the uncles, except a last empty one. -/
def decodeFields {τ : Type} (stod : String → Option τ) (data : String) : Option (Share τ) :=
  let f := (splitFields data.data).map String.mk
  match stoi (f.getD 1 "") with
  | none => none
  | some h =>
    match stod (f.getD 2 (f.getD 1 "")) with
    | none => none
    | some timestamp =>
      some ⟨f.getD 0 "", toU32 h, timestamp, f.getD 3 "", dropTrailingEmpty (f.drop 4)⟩

/-- The default stream output of a `double` that is a whole number `n` below
`10^6`, used for the scenarios: `5` is written `5`. -/
def fmtWhole (n : Nat) : String := toString n

/-- A stand-in for `std::stod` on the tokens of the scenarios, whose values are
whole numbers: the leading decimal digits are read, and a token that does not
start with a digit is rejected. -/
def stodWhole (token : String) : Option Nat :=
  if token.data.takeWhile Char.isDigit = [] then none
  else some (digitsValue (token.data.takeWhile Char.isDigit))

/-- The string does not contain the delimiter of the wire format. -/
def NoDelim (str : String) : Prop := '|' ∉ str.data

instance noDelimDecidable (str : String) : Decidable (NoDelim str) :=
  inferInstanceAs (Decidable ('|' ∉ str.data))

/-- A share whose only uncle string is empty. -/
def emptyUncleShare : Share Nat := ⟨"h", 0, 0, "", [""]⟩

/-- A share whose height is `2^31`, a value of `uint32_t` above `INT_MAX`. -/
def highShare : Share Nat := ⟨"h", 2147483648, 0, "", []⟩

/-- The share that `HandleReceive` decodes from a packet: the first 1024 bytes
(the characters of an ASCII message) are copied and given to `DeserializeShare`
(source lines 208-213). -/
def packetShare {τ : Type} (stod : String → Option τ) (packet : String) : Option (Share τ) :=
  DeserializeShare stod (String.mk (packet.data.take 1024))

/-- The field of index `i` of a message, `dflt` when the message has fewer
fields. -/
def fieldOr (data : String) (i : Nat) (dflt : String) : String :=
  ((splitFields data.data).map String.mk).getD i dflt

/-- The calls `AddShare(receivedShare, now)` for the packets of a list that
decode, in order. -/
def decodedCalls {τ : Type} (stod : String → Option τ) (now : τ) (packets : List String) :
    List (Share τ × τ) :=
  packets.filterMap (fun p => (packetShare stod p).map (fun sh => (sh, now)))

/-- The packets of a list that come before the first one that fails to decode. -/
def decodablePrefix {τ : Type} (stod : String → Option τ) (packets : List String) :
    List String :=
  packets.takeWhile (fun p => (packetShare stod p).isSome)

/-- The timestamps of the scenarios on the text of a `double`: the whole
numbers below `10^6`, and the subnormal value `1e-310`. -/
inductive SampleDouble where
  | whole (n : Nat)
  | tiny
deriving DecidableEq, Repr

/-- The default stream output of the sample timestamps: a whole number is
written with its digits, and the subnormal value is written `1e-310`. -/
def fmtSample : SampleDouble → String
  | SampleDouble.whole n => toString n
  | SampleDouble.tiny => "1e-310"

/-- The library function `std::stod` on the tokens of the scenarios.  On the
text `1e-310` the value is subnormal: `strtod` reports a range error and
`std::stod` throws `std::out_of_range`, the result `none`.  On the other tokens
the leading decimal digits are read, as `stodWhole` does. -/
def stodSample (token : String) : Option SampleDouble :=
  if token = "1e-310" then none else (stodWhole token).map SampleDouble.whole

/-- A share whose strings contain no delimiter, with one non-empty uncle and
height 1, whose timestamp is the subnormal value `1e-310`. -/
def tinyTimeShare : Share SampleDouble := ⟨"h", 1, SampleDouble.tiny, "p", ["u"]⟩

/-- The share `s2` with its timestamp taken among the sample timestamps. -/
def s2Sample : Share SampleDouble := ⟨"s2", 2, SampleDouble.whole 2, "s1", ["s0"]⟩

/-! Lemmas on the map operations -/

theorem keyLess_irrefl (a : String) : ¬ keyLess a a := by
  unfold keyLess
  exact lt_irrefl _

theorem keyLess_trans {a b c : String} (h1 : keyLess a b) (h2 : keyLess b c) : keyLess a c := by
  unfold keyLess at *
  exact lt_trans h1 h2

theorem keyLess_of_not {a b : String} (h1 : ¬ keyLess a b) (h2 : a ≠ b) : keyLess b a := by
  unfold keyLess at *
  rcases lt_trichotomy a.data b.data with h | h | h
  · exact absurd h h1
  · exact absurd (String.ext h) h2
  · exact h

theorem find_none_iff {V : Type} (m : List (String × V)) (k : String) :
    find m k = none ↔ k ∉ keys m := by
  induction m with
  | nil => simp [find, keys]
  | cons e rest ih =>
    obtain ⟨k1, v1⟩ := e
    by_cases h : k = k1
    · simp [find, keys, h]
    · simp only [find, if_neg h, ih]
      simp [keys, h]

theorem find_isSome_iff {V : Type} (m : List (String × V)) (k : String) :
    (find m k).isSome = true ↔ k ∈ keys m := by
  rw [← not_iff_not, ← find_none_iff]
  cases find m k <;> simp

theorem find_some_mem {V : Type} (m : List (String × V)) (k : String) (v : V)
    (h : find m k = some v) : (k, v) ∈ m := by
  induction m with
  | nil => simp [find] at h
  | cons e rest ih =>
    obtain ⟨k1, v1⟩ := e
    by_cases hk : k = k1
    · simp only [find, if_pos hk, Option.some.injEq] at h
      simp [hk, h]
    · simp only [find, if_neg hk] at h
      exact List.mem_cons_of_mem _ (ih h)

theorem find_assign_self {V : Type} (m : List (String × V)) (k : String) (v : V) :
    find (assign m k v) k = some v := by
  induction m with
  | nil => simp [assign, find]
  | cons e rest ih =>
    obtain ⟨k1, v1⟩ := e
    simp only [assign]
    split
    · simp [find]
    · split
      · simp [find]
      · next h2 => simp [find, h2, ih]

theorem find_assign_ne {V : Type} (m : List (String × V)) (k k2 : String) (v : V)
    (hne : k2 ≠ k) : find (assign m k v) k2 = find m k2 := by
  induction m with
  | nil => simp [assign, find, hne]
  | cons e rest ih =>
    obtain ⟨k1, v1⟩ := e
    simp only [assign]
    split
    · simp [find, hne]
    · split
      · next h2 => subst h2; simp [find, hne]
      · simp [find, ih]

theorem mem_assign {V : Type} (m : List (String × V)) (k : String) (v : V) (e : String × V)
    (h : e ∈ assign m k v) : e = (k, v) ∨ e ∈ m := by
  induction m with
  | nil => simpa [assign] using h
  | cons e1 rest ih =>
    obtain ⟨k1, v1⟩ := e1
    simp only [assign] at h
    split at h
    · simpa using h
    · split at h
      · rcases List.mem_cons.mp h with h3 | h3
        · exact Or.inl h3
        · exact Or.inr (List.mem_cons_of_mem _ h3)
      · rcases List.mem_cons.mp h with h3 | h3
        · exact Or.inr (by simp [h3])
        · rcases ih h3 with h4 | h4
          · exact Or.inl h4
          · exact Or.inr (List.mem_cons_of_mem _ h4)

theorem mem_assign_of_mem {V : Type} (m : List (String × V)) (k : String) (v : V)
    (e : String × V) (hk : k ∉ keys m) (h : e ∈ m) : e ∈ assign m k v := by
  induction m with
  | nil => simp at h
  | cons e1 rest ih =>
    obtain ⟨k1, v1⟩ := e1
    have hk1 : k ≠ k1 := by
      intro h1
      exact hk (by simp [keys, h1])
    have hk2 : k ∉ keys rest := by
      intro h1
      exact hk (by simp only [keys, List.map_cons, List.mem_cons]; exact Or.inr h1)
    simp only [assign, if_neg hk1]
    split
    · exact List.mem_cons_of_mem _ h
    · rcases List.mem_cons.mp h with h3 | h3
      · simp [h3]
      · exact List.mem_cons_of_mem _ (ih hk2 h3)

theorem mem_keys_assign {V : Type} (m : List (String × V)) (k k2 : String) (v : V) :
    k2 ∈ keys (assign m k v) ↔ k2 = k ∨ k2 ∈ keys m := by
  rw [← find_isSome_iff, ← find_isSome_iff]
  by_cases h : k2 = k
  · subst h
    simp [find_assign_self]
  · simp [find_assign_ne m k k2 v h, h]

theorem keys_assign_value {V : Type} (m : List (String × V)) (k : String) (v w : V) :
    keys (assign m k v) = keys (assign m k w) := by
  induction m with
  | nil => simp [assign, keys]
  | cons e rest ih =>
    obtain ⟨k1, v1⟩ := e
    simp only [assign]
    split
    · simp [keys]
    · split
      · simp [keys]
      · simp only [keys, List.map_cons] at ih ⊢
        rw [ih]

theorem assign_sorted {V : Type} (m : List (String × V)) (k : String) (v : V)
    (h : Sorted m) : Sorted (assign m k v) := by
  induction m with
  | nil => simp [assign, Sorted, keys]
  | cons e rest ih =>
    obtain ⟨k1, v1⟩ := e
    simp only [Sorted, keys, List.map_cons, List.pairwise_cons] at h
    obtain ⟨h1, h2⟩ := h
    simp only [assign]
    split
    · next hlt =>
      simp only [Sorted, keys, List.map_cons, List.pairwise_cons, List.mem_cons]
      refine ⟨?_, h1, h2⟩
      intro a ha
      rcases ha with ha | ha
      · rw [ha]; exact hlt
      · exact keyLess_trans hlt (h1 a ha)
    · split
      · next heq =>
        subst heq
        simp only [Sorted, keys, List.map_cons, List.pairwise_cons]
        exact ⟨h1, h2⟩
      · next hnlt hne =>
        have ih2 := ih h2
        simp only [Sorted, keys, List.map_cons, List.pairwise_cons] at ih2 ⊢
        refine ⟨?_, ih2⟩
        intro a ha
        have ha2 : a ∈ keys (assign rest k v) := ha
        rw [mem_keys_assign] at ha2
        rcases ha2 with ha3 | ha3
        · rw [ha3]; exact keyLess_of_not hnlt hne
        · exact h1 a ha3

/-! Lemmas on `AddShare` -/

theorem AddShare_duplicate {τ : Type} (c : Sharechain τ) (s : Share τ) (t : τ)
    (h : s.hash ∈ keys c.shares_) : AddShare c s t = c := by
  have h1 : (find c.shares_ s.hash).isSome = true := (find_isSome_iff _ _).mpr h
  simp [AddShare, h1]

theorem AddShare_stored {τ : Type} (c : Sharechain τ) (s : Share τ) (t : τ)
    (h : s.hash ∉ keys c.shares_) (hok : ParentAndHeightOk c.shares_ s) :
    AddShare c s t =
      ⟨assign c.shares_ s.hash s,
        countUncles (assign c.shares_ s.hash s) s.height s.uncles c.uncleCount_,
        c.orphanCount_⟩ := by
  have h1 : ¬ (find c.shares_ s.hash).isSome = true := fun h2 => h ((find_isSome_iff _ _).mp h2)
  obtain ⟨hp, hh⟩ := hok
  simp only [AddShare, if_neg h1, if_pos hp]
  rw [if_pos hh]

theorem AddShare_rejected {τ : Type} (c : Sharechain τ) (s : Share τ) (t : τ)
    (h : s.hash ∉ keys c.shares_) (hok : ¬ ParentAndHeightOk c.shares_ s) :
    AddShare c s t = ⟨c.shares_, c.uncleCount_, u32add c.orphanCount_ 1⟩ := by
  have h1 : ¬ (find c.shares_ s.hash).isSome = true := fun h2 => h ((find_isSome_iff _ _).mp h2)
  simp only [AddShare, if_neg h1]
  by_cases hp : s.parentHash = "" ∨ (find c.shares_ s.parentHash).isSome = true
  · rw [if_pos hp]
    have hh : ¬ s.height =
        (if s.parentHash = "" then 0 else parentHeightPlusOne c.shares_ s.parentHash) :=
      fun h3 => hok ⟨hp, h3⟩
    simp only [if_neg hh]
  · rw [if_neg hp]

theorem AddShare_shares_cases {τ : Type} (c : Sharechain τ) (s : Share τ) (t : τ) :
    (AddShare c s t).shares_ = c.shares_ ∨
      (s.hash ∉ keys c.shares_ ∧ ParentAndHeightOk c.shares_ s ∧
        (AddShare c s t).shares_ = assign c.shares_ s.hash s) := by
  by_cases h : s.hash ∈ keys c.shares_
  · rw [AddShare_duplicate c s t h]
    exact Or.inl rfl
  · by_cases hok : ParentAndHeightOk c.shares_ s
    · rw [AddShare_stored c s t h hok]
      exact Or.inr ⟨h, hok, rfl⟩
    · rw [AddShare_rejected c s t h hok]
      exact Or.inl rfl

/-- The key invariant is kept by one `AddShare` call. -/
theorem AddShare_keeps_key_hash {τ : Type} (c : Sharechain τ) (s : Share τ) (t : τ)
    (hinv : ∀ k v, (k, v) ∈ c.shares_ → k = v.hash) :
    ∀ k v, (k, v) ∈ (AddShare c s t).shares_ → k = v.hash := by
  intro k v hmem
  rcases AddShare_shares_cases c s t with h | ⟨_, _, h⟩
  · rw [h] at hmem
    exact hinv k v hmem
  · rw [h] at hmem
    rcases mem_assign _ _ _ _ hmem with h2 | h2
    · simp only [Prod.mk.injEq] at h2
      rw [h2.1, h2.2]
    · exact hinv k v h2

theorem addAll_keeps_key_hash {τ : Type} (calls : List (Share τ × τ)) (c : Sharechain τ)
    (hinv : ∀ k v, (k, v) ∈ c.shares_ → k = v.hash) :
    ∀ k v, (k, v) ∈ (addAll c calls).shares_ → k = v.hash := by
  induction calls generalizing c with
  | nil => exact hinv
  | cons call rest ih =>
    obtain ⟨s, t⟩ := call
    exact ih (AddShare c s t) (AddShare_keeps_key_hash c s t hinv)

/-- The ordering of the map is kept by one `AddShare` call. -/
theorem AddShare_keeps_sorted {τ : Type} (c : Sharechain τ) (s : Share τ) (t : τ)
    (h : Sorted c.shares_) : Sorted (AddShare c s t).shares_ := by
  rcases AddShare_shares_cases c s t with h1 | ⟨_, _, h1⟩
  · rw [h1]
    exact h
  · rw [h1]
    exact assign_sorted _ _ _ h

/-- Every chain built from the empty one by `AddShare` calls is a well-formed
map: its keys are strictly ascending, hence pairwise distinct. -/
theorem addAll_sorted {τ : Type} (calls : List (Share τ × τ)) (c : Sharechain τ)
    (h : Sorted c.shares_) : Sorted (addAll c calls).shares_ := by
  induction calls generalizing c with
  | nil => exact h
  | cons call rest ih =>
    obtain ⟨s, t⟩ := call
    exact ih (AddShare c s t) (AddShare_keeps_sorted c s t h)

/-! Claims -/

/-- C1: for every finite sequence of `AddShare` calls (any shares, any times)
applied to the empty Sharechain, every entry `(k, v)` of `shares_` in the
resulting state satisfies `k = v.hash`. -/
theorem C1_key_equals_hash {τ : Type} (calls : List (Share τ × τ)) (k : String) (v : Share τ)
    (h : (k, v) ∈ (addAll (Sharechain.empty τ) calls).shares_) : k = v.hash := by
  refine addAll_keeps_key_hash calls (Sharechain.empty τ) ?_ k v h
  intro k1 v1 h1
  simp [Sharechain.empty] at h1

/-- Witness of C1: after the calls for `s0`, a wrong-height share and `s1`, the
entry stored under `"s1"` is `s1`, whose hash is `"s1"`. -/
theorem C1_key_equals_hash_witness :
    ("s1", s1) ∈ (addAll (Sharechain.empty Nat) [(s0, 0), (s1WrongHeight, 1), (s1, 1)]).shares_ ∧
      "s1" = s1.hash :=
  ⟨by decide, C1_key_equals_hash [(s0, 0), (s1WrongHeight, 1), (s1, 1)] "s1" s1 (by decide)⟩

/-- C2: a share whose hash is already a key of `shares_` (whatever its other
fields are) leaves the whole state unchanged: `shares_`, `uncleCount_` and
`orphanCount_`. -/
theorem C2_duplicate_noop {τ : Type} (c : Sharechain τ) (s : Share τ) (t : τ)
    (h : s.hash ∈ keys c.shares_) :
    (AddShare c s t).shares_ = c.shares_ ∧ (AddShare c s t).uncleCount_ = c.uncleCount_ ∧
      (AddShare c s t).orphanCount_ = c.orphanCount_ := by
  rw [AddShare_duplicate c s t h]
  exact ⟨rfl, rfl, rfl⟩

/-- Witness of C2: a share with the hash of `s0`, an unknown parent, a wrong
height and an uncle, offered to the chain holding `s0`. -/
theorem C2_duplicate_noop_witness :
    dupOfS0.hash ∈ keys chain0.shares_ ∧
      (AddShare chain0 dupOfS0 9).shares_ = chain0.shares_ ∧
      (AddShare chain0 dupOfS0 9).uncleCount_ = chain0.uncleCount_ ∧
      (AddShare chain0 dupOfS0 9).orphanCount_ = chain0.orphanCount_ :=
  ⟨by decide, C2_duplicate_noop chain0 dupOfS0 9 (by decide)⟩

/-- C3 as stated fails: `s1` offered twice to the empty chain is rejected twice
(its parent `s0` is missing), and the second call counts a second orphan. -/
theorem C3_counterexample :
    AddShare (Sharechain.empty Nat) s1 1 = ⟨[], 0, 1⟩ ∧
      AddShare (AddShare (Sharechain.empty Nat) s1 1) s1 1 = ⟨[], 0, 2⟩ ∧
      AddShare (AddShare (Sharechain.empty Nat) s1 1) s1 1 ≠
        AddShare (Sharechain.empty Nat) s1 1 := by
  decide

/-- C3 amended: a second call with the identical share changes nothing when
the share is stored after the first call (accepted by it, or already a
duplicate); a share the first call rejected is rejected again: `shares_` and
`uncleCount_` stay and `orphanCount_` is incremented once more (as a
`uint32_t`). -/
theorem C3_second_call {τ : Type} (c : Sharechain τ) (s : Share τ) (t t2 : τ) :
    (s.hash ∈ keys (AddShare c s t).shares_ →
        AddShare (AddShare c s t) s t2 = AddShare c s t) ∧
      (s.hash ∉ keys (AddShare c s t).shares_ →
        AddShare (AddShare c s t) s t2 =
          ⟨(AddShare c s t).shares_, (AddShare c s t).uncleCount_,
            u32add (AddShare c s t).orphanCount_ 1⟩) := by
  constructor
  · intro h
    exact AddShare_duplicate _ s t2 h
  · intro h
    have hc : s.hash ∉ keys c.shares_ := by
      intro h1
      rw [AddShare_duplicate c s t h1] at h
      exact h h1
    have hok : ¬ ParentAndHeightOk c.shares_ s := by
      intro h1
      rw [AddShare_stored c s t hc h1] at h
      exact h ((mem_keys_assign _ _ _ _).mpr (Or.inl rfl))
    rw [AddShare_rejected c s t hc hok]
    exact AddShare_rejected _ s t2 hc hok

/-- Witness of C3 amended: `s0` accepted by the empty chain, then offered again;
`s1` rejected by the empty chain, then offered again. -/
theorem C3_second_call_witness :
    s0.hash ∈ keys (AddShare (Sharechain.empty Nat) s0 0).shares_ ∧
      AddShare (AddShare (Sharechain.empty Nat) s0 0) s0 3 =
        AddShare (Sharechain.empty Nat) s0 0 ∧
      s1.hash ∉ keys (AddShare (Sharechain.empty Nat) s1 1).shares_ ∧
      AddShare (AddShare (Sharechain.empty Nat) s1 1) s1 3 = ⟨[], 0, 2⟩ :=
  ⟨by decide, (C3_second_call (Sharechain.empty Nat) s0 0 3).1 (by decide), by decide,
    (C3_second_call (Sharechain.empty Nat) s1 1 3).2 (by decide)⟩

theorem u32add_one_of_lt (n : Nat) (h : n < 4294967295) : u32add n 1 = n + 1 := by
  unfold u32add
  exact Nat.mod_eq_of_lt (by omega)

/-- C4 as stated fails: the share has the non-empty parent `zz`, which is not a
key, but its hash `s0` is already stored, so the call is a duplicate no-op and
`orphanCount_` stays 0. -/
theorem C4_counterexample :
    dupWithUnknownParent.parentHash ≠ "" ∧
      dupWithUnknownParent.parentHash ∉ keys chain0.shares_ ∧
      chain0.orphanCount_ = 0 ∧
      (AddShare chain0 dupWithUnknownParent 5).orphanCount_ = 0 := by
  decide

/-- C4 amended: a share whose hash is not yet a key of `shares_`, and whose
`parentHash` is non-empty and not a key of `shares_`, is never inserted
(`shares_` is unchanged, and so is `uncleCount_`) and `orphanCount_` is
incremented once as a `uint32_t`: by exactly 1 below `2^32 - 1`. -/
theorem C4_missing_parent_orphan {τ : Type} (c : Sharechain τ) (s : Share τ) (t : τ)
    (hnew : s.hash ∉ keys c.shares_) (hne : s.parentHash ≠ "")
    (hmiss : s.parentHash ∉ keys c.shares_) :
    (AddShare c s t).shares_ = c.shares_ ∧
      (AddShare c s t).uncleCount_ = c.uncleCount_ ∧
      (AddShare c s t).orphanCount_ = u32add c.orphanCount_ 1 ∧
      (c.orphanCount_ < 4294967295 → (AddShare c s t).orphanCount_ = c.orphanCount_ + 1) := by
  have hok : ¬ ParentAndHeightOk c.shares_ s := by
    rintro ⟨h1 | h1, _⟩
    · exact hne h1
    · exact hmiss ((find_isSome_iff _ _).mp h1)
  rw [AddShare_rejected c s t hnew hok]
  exact ⟨rfl, rfl, rfl, fun h => u32add_one_of_lt _ h⟩

/-- Witness of C4 amended: a fresh share with the unknown parent `zz`, offered to
the chain holding `s0`. -/
theorem C4_missing_parent_orphan_witness :
    unknownParentShare.hash ∉ keys chain0.shares_ ∧
      unknownParentShare.parentHash ≠ "" ∧
      unknownParentShare.parentHash ∉ keys chain0.shares_ ∧
      (AddShare chain0 unknownParentShare 5).shares_ = chain0.shares_ ∧
      (AddShare chain0 unknownParentShare 5).uncleCount_ = chain0.uncleCount_ ∧
      (AddShare chain0 unknownParentShare 5).orphanCount_ = 1 :=
  ⟨by decide, by decide, by decide,
    (C4_missing_parent_orphan chain0 unknownParentShare 5 (by decide) (by decide)
      (by decide)).1,
    (C4_missing_parent_orphan chain0 unknownParentShare 5 (by decide) (by decide)
      (by decide)).2.1,
    (C4_missing_parent_orphan chain0 unknownParentShare 5 (by decide) (by decide)
      (by decide)).2.2.1⟩

/-- C5 as stated fails: the chain stores a share under the empty key (height 0);
the root share `a` has a fresh hash, its `parentHash` (empty) is a key of
`shares_`, and its height 0 differs from that stored share's height plus one,
yet `a` is inserted and no orphan is counted. -/
theorem C5_counterexample :
    rootA.hash ∉ keys chainEmptyKey.shares_ ∧
      rootA.parentHash ∈ keys chainEmptyKey.shares_ ∧
      find chainEmptyKey.shares_ rootA.parentHash = some emptyHashShare ∧
      rootA.height ≠ emptyHashShare.height + 1 ∧
      AddShare chainEmptyKey rootA 1 = ⟨[("", emptyHashShare), ("a", rootA)], 0, 0⟩ := by
  decide

/-- C5 amended: a share whose hash is not yet a key, whose `parentHash` is
non-empty and stored as `p`, and whose height differs from `p.height + 1` taken
as a `uint32_t` (modulo `2^32`), is not inserted, leaves `uncleCount_` unchanged
and increments `orphanCount_` once as a `uint32_t`: by exactly 1 below
`2^32 - 1`. -/
theorem C5_wrong_height_orphan {τ : Type} (c : Sharechain τ) (s p : Share τ) (t : τ)
    (hnew : s.hash ∉ keys c.shares_) (hne : s.parentHash ≠ "")
    (hp : find c.shares_ s.parentHash = some p)
    (hh : s.height ≠ (p.height + 1) % 4294967296) :
    (AddShare c s t).shares_ = c.shares_ ∧
      (AddShare c s t).uncleCount_ = c.uncleCount_ ∧
      (AddShare c s t).orphanCount_ = u32add c.orphanCount_ 1 ∧
      (c.orphanCount_ < 4294967295 → (AddShare c s t).orphanCount_ = c.orphanCount_ + 1) := by
  have hok : ¬ ParentAndHeightOk c.shares_ s := by
    rintro ⟨_, h2⟩
    rw [if_neg hne] at h2
    simp only [parentHeightPlusOne, hp, u32add] at h2
    exact hh h2
  rw [AddShare_rejected c s t hnew hok]
  exact ⟨rfl, rfl, rfl, fun h => u32add_one_of_lt _ h⟩

/-- Witness of C5 amended, the scenario of the claim: the chain holds only `s0`
(height 0); `s1` with height 5 and parent `s0` is rejected, the total stays 1
and `orphanCount_` becomes 1. -/
theorem C5_wrong_height_orphan_witness :
    s1WrongHeight.hash ∉ keys chain0.shares_ ∧
      s1WrongHeight.parentHash ≠ "" ∧
      find chain0.shares_ s1WrongHeight.parentHash = some s0 ∧
      s1WrongHeight.height ≠ (s0.height + 1) % 4294967296 ∧
      GetTotalShares chain0 = 1 ∧
      GetTotalShares (AddShare chain0 s1WrongHeight 1) = 1 ∧
      (AddShare chain0 s1WrongHeight 1).shares_ = chain0.shares_ ∧
      (AddShare chain0 s1WrongHeight 1).uncleCount_ = chain0.uncleCount_ ∧
      (AddShare chain0 s1WrongHeight 1).orphanCount_ = 1 :=
  ⟨by decide, by decide, by decide, by decide, by decide, by decide,
    (C5_wrong_height_orphan chain0 s1WrongHeight s0 1 (by decide) (by decide) (by decide)
      (by decide)).1,
    (C5_wrong_height_orphan chain0 s1WrongHeight s0 1 (by decide) (by decide) (by decide)
      (by decide)).2.1,
    (C5_wrong_height_orphan chain0 s1WrongHeight s0 1 (by decide) (by decide) (by decide)
      (by decide)).2.2.1⟩

/-- A share is accepted exactly when it is new and passes the parent and
height test. -/
theorem Accepted_iff {τ : Type} (c : Sharechain τ) (s : Share τ) (t : τ) :
    Accepted c s t ↔ s.hash ∉ keys c.shares_ ∧ ParentAndHeightOk c.shares_ s := by
  constructor
  · rintro ⟨h1, h2⟩
    refine ⟨h1, ?_⟩
    by_contra hok
    rw [AddShare_rejected c s t h1 hok] at h2
    exact h1 h2
  · rintro ⟨h1, h2⟩
    refine ⟨h1, ?_⟩
    rw [AddShare_stored c s t h1 h2]
    exact (mem_keys_assign _ _ _ _).mpr (Or.inl rfl)

theorem uncle_condition_eq {τ : Type} (m : List (String × Share τ)) (height : Nat)
    (h : String) : ((find m h).isSome && IsUncleValid m h height) = uncleTest m height h := by
  unfold IsUncleValid uncleTest u32sub
  cases find m h <;> simp

/-- The uncle loop adds, modulo `2^32`, the number of entries passing the test. -/
theorem countUncles_eq {τ : Type} (m : List (String × Share τ)) (height : Nat)
    (us : List String) (n : Nat) (hn : n < 4294967296) :
    countUncles m height us n =
      (n + (us.filter (uncleTest m height)).length) % 4294967296 := by
  induction us generalizing n with
  | nil => simp [countUncles, Nat.mod_eq_of_lt hn]
  | cons h rest ih =>
    simp only [countUncles, uncle_condition_eq]
    by_cases hc : uncleTest m height h = true
    · have hlt : u32add n 1 < 4294967296 := Nat.mod_lt _ (by norm_num)
      rw [if_pos hc, ih _ hlt, List.filter_cons_of_pos hc]
      simp only [u32add, List.length_cons]
      omega
    · rw [if_neg hc, ih _ hn, List.filter_cons_of_neg hc]

/-- C6 as stated fails: `lateRoot` (height 0) is accepted by the chain holding
`s0` and `s1`; its one uncle entry `s1` is a key stored at height 1, and
`0 - 1 <= 7` as integers, so the claim counts one uncle; the code counts none
(`0 - 1` is `4294967295` as a `uint32_t`). -/
theorem C6_counterexample :
    lateRoot.hash ∉ keys chain01.shares_ ∧
      lateRoot.hash ∈ keys (AddShare chain01 lateRoot 2).shares_ ∧
      (lateRoot.uncles.filter (claimedUncleTest chain01.shares_ lateRoot.height)).length = 1 ∧
      (lateRoot.uncles.filter
        (claimedUncleTest (AddShare chain01 lateRoot 2).shares_ lateRoot.height)).length = 1 ∧
      chain01.uncleCount_ = 0 ∧
      (AddShare chain01 lateRoot 2).uncleCount_ = 0 := by
  decide

/-- C6 amended: when `AddShare` accepts a share `s`, `uncleCount_` grows, as a
`uint32_t` (modulo `2^32`), by the number of entries `h` of `s.uncles`, counted
with multiplicity, such that `h` is a key of `shares_` once `s` itself is
stored and the stored height `u` of `h` satisfies `s.height - u <= 7` with the
`uint32_t` difference (an uncle recorded above `s.height` does not qualify
unless the difference wraps to at most 7); in every other case `uncleCount_`
is unchanged. -/
theorem C6_uncle_accounting {τ : Type} (c : Sharechain τ) (s : Share τ) (t : τ)
    (hty : c.uncleCount_ < 4294967296) :
    (Accepted c s t →
        (AddShare c s t).uncleCount_ =
          (c.uncleCount_ +
            (s.uncles.filter (uncleTest (AddShare c s t).shares_ s.height)).length)
            % 4294967296) ∧
      (¬ Accepted c s t → (AddShare c s t).uncleCount_ = c.uncleCount_) := by
  constructor
  · intro hacc
    obtain ⟨h1, h2⟩ := (Accepted_iff c s t).mp hacc
    rw [AddShare_stored c s t h1 h2]
    exact countUncles_eq _ _ _ _ hty
  · intro hacc
    by_cases h1 : s.hash ∈ keys c.shares_
    · rw [AddShare_duplicate c s t h1]
    · have hok : ¬ ParentAndHeightOk c.shares_ s := fun h2 =>
        hacc ((Accepted_iff c s t).mpr ⟨h1, h2⟩)
      rw [AddShare_rejected c s t h1 hok]

/-- Witness of C6 amended, the scenario of the claim: the chain holds `s0`
(height 0) and `s1` (height 1, parent `s0`); `s2` at height 2 with parent `s1`
and uncles `[s0]` is accepted, `uncleCount_` goes from 0 to 1 and the chain has
3 shares.  A duplicate of `s0` is not accepted and changes no count. -/
theorem C6_uncle_accounting_witness :
    chain01.uncleCount_ < 4294967296 ∧ Accepted chain01 s2 2 ∧
      (s2.uncles.filter (uncleTest (AddShare chain01 s2 2).shares_ s2.height)).length = 1 ∧
      (AddShare chain01 s2 2).uncleCount_ = 1 ∧
      GetTotalShares (AddShare chain01 s2 2) = 3 ∧
      ¬ Accepted chain0 dupOfS0 9 ∧
      (AddShare chain0 dupOfS0 9).uncleCount_ = chain0.uncleCount_ :=
  ⟨by decide, by unfold Accepted; decide, by decide,
    (C6_uncle_accounting chain01 s2 2 (by decide)).1 (by unfold Accepted; decide),
    by decide, by unfold Accepted; decide,
    (C6_uncle_accounting chain0 dupOfS0 9 (by decide)).2 (by unfold Accepted; decide)⟩

/-- A single listed uncle that is already stored is looked up, after the
insertion of the new share, with its old value. -/
theorem find_after_store {τ : Type} (c : Sharechain τ) (s u : Share τ) (h : String)
    (hnew : s.hash ∉ keys c.shares_) (hst : find c.shares_ h = some u) :
    find (assign c.shares_ s.hash s) h = some u := by
  have hne : h ≠ s.hash := by
    intro heq
    rw [heq] at hst
    have := (find_none_iff c.shares_ s.hash).mpr hnew
    rw [this] at hst
    exact Option.noConfusion hst
  rw [find_assign_ne _ _ _ _ hne, hst]

/-- C7: when `AddShare` accepts a share at height `H` that lists exactly one
uncle hash, already stored at height `U`, then `uncleCount_` is incremented
(as a `uint32_t`: by exactly 1 below `2^32 - 1`) if `H - U = 7`, and is
unchanged if `H - U = 8`. -/
theorem C7_uncle_window_boundary {τ : Type} (c : Sharechain τ) (s u : Share τ) (t : τ)
    (h : String) (hacc : Accepted c s t) (hone : s.uncles = [h])
    (hst : find c.shares_ h = some u) :
    ((s.height : Int) - (u.height : Int) = 7 →
        (AddShare c s t).uncleCount_ = u32add c.uncleCount_ 1 ∧
          (c.uncleCount_ < 4294967295 →
            (AddShare c s t).uncleCount_ = c.uncleCount_ + 1)) ∧
      ((s.height : Int) - (u.height : Int) = 8 →
        (AddShare c s t).uncleCount_ = c.uncleCount_) := by
  obtain ⟨h1, h2⟩ := (Accepted_iff c s t).mp hacc
  have hf := find_after_store c s u h h1 hst
  rw [AddShare_stored c s t h1 h2, hone]
  simp only [countUncles, IsUncleValid, hf, Option.isSome_some, Bool.true_and, u32sub]
  constructor
  · intro h7
    have h7n : s.height = u.height + 7 := by omega
    have hle : (s.height + (4294967296 - u.height % 4294967296)) % 4294967296 ≤ 7 := by
      omega
    simp only [hle, decide_True, if_true]
    exact ⟨trivial, fun hlt => u32add_one_of_lt _ hlt⟩
  · intro h8
    have h8n : s.height = u.height + 8 := by omega
    have hle : ¬ (s.height + (4294967296 - u.height % 4294967296)) % 4294967296 ≤ 7 := by
      omega
    simp [hle]

/-- Witness of C7 on the chain `h0 .. h7`: the share at height 8 with parent
`h7` and the single uncle `h1` (stored at height 1, difference 7) takes
`uncleCount_` from 0 to 1; with the single uncle `h0` (stored at height 0,
difference 8) it leaves `uncleCount_` at 0. -/
theorem C7_uncle_window_boundary_witness :
    Accepted chainH07 h8UncleH1 8 ∧ h8UncleH1.uncles = ["h1"] ∧
      find chainH07.shares_ "h1" = some ⟨"h1", 1, 1, "h0", []⟩ ∧
      chainH07.uncleCount_ = 0 ∧
      (AddShare chainH07 h8UncleH1 8).uncleCount_ = 1 ∧
      Accepted chainH07 h8UncleH0 8 ∧ h8UncleH0.uncles = ["h0"] ∧
      find chainH07.shares_ "h0" = some ⟨"h0", 0, 0, "", []⟩ ∧
      (AddShare chainH07 h8UncleH0 8).uncleCount_ = 0 :=
  ⟨by unfold Accepted; decide, by decide, by decide, by decide,
    ((C7_uncle_window_boundary chainH07 h8UncleH1 ⟨"h1", 1, 1, "h0", []⟩ 8 "h1"
      (by unfold Accepted; decide) (by decide) (by decide)).1 (by decide)).1,
    by unfold Accepted; decide, by decide, by decide,
    (C7_uncle_window_boundary chainH07 h8UncleH0 ⟨"h0", 0, 0, "", []⟩ 8 "h0"
      (by unfold Accepted; decide) (by decide) (by decide)).2 (by decide)⟩

theorem ParentAndHeightOk_congr {τ : Type} (m : List (String × Share τ)) (a b : Share τ)
    (hheight : a.height = b.height) (hparent : a.parentHash = b.parentHash) :
    ParentAndHeightOk m a ↔ ParentAndHeightOk m b := by
  unfold ParentAndHeightOk
  rw [hheight, hparent]

/-- C8: two shares that agree on hash, height, timestamp and parentHash and
differ only in their uncle lists give, from the same state, the same keys of
`shares_` and the same `orphanCount_`. -/
theorem C8_uncles_do_not_gate {τ : Type} (c : Sharechain τ) (a b : Share τ) (t : τ)
    (hhash : a.hash = b.hash) (hheight : a.height = b.height)
    (_htime : a.timestamp = b.timestamp) (hparent : a.parentHash = b.parentHash) :
    keys (AddShare c a t).shares_ = keys (AddShare c b t).shares_ ∧
      (AddShare c a t).orphanCount_ = (AddShare c b t).orphanCount_ := by
  by_cases h1 : a.hash ∈ keys c.shares_
  · have h2 : b.hash ∈ keys c.shares_ := hhash ▸ h1
    rw [AddShare_duplicate c a t h1, AddShare_duplicate c b t h2]
    exact ⟨rfl, rfl⟩
  · have h2 : b.hash ∉ keys c.shares_ := hhash ▸ h1
    by_cases hok : ParentAndHeightOk c.shares_ a
    · have hok2 := (ParentAndHeightOk_congr c.shares_ a b hheight hparent).mp hok
      rw [AddShare_stored c a t h1 hok, AddShare_stored c b t h2 hok2]
      refine ⟨?_, rfl⟩
      simp only
      rw [hhash]
      exact keys_assign_value _ _ _ _
    · have hok2 : ¬ ParentAndHeightOk c.shares_ b := fun h3 =>
        hok ((ParentAndHeightOk_congr c.shares_ a b hheight hparent).mpr h3)
      rw [AddShare_rejected c a t h1 hok, AddShare_rejected c b t h2 hok2]
      exact ⟨rfl, rfl⟩

/-- Witness of C8: `s2` with uncles `[s0]` and with uncles `[s1, zz, s0]`, both
offered to the chain holding `s0` and `s1`: the keys are `s0, s1, s2` and
`orphanCount_` is 0 both times. -/
theorem C8_uncles_do_not_gate_witness :
    s2.hash = s2OtherUncles.hash ∧ s2.height = s2OtherUncles.height ∧
      s2.timestamp = s2OtherUncles.timestamp ∧ s2.parentHash = s2OtherUncles.parentHash ∧
      s2.uncles ≠ s2OtherUncles.uncles ∧
      keys (AddShare chain01 s2 2).shares_ = ["s0", "s1", "s2"] ∧
      keys (AddShare chain01 s2 2).shares_ = keys (AddShare chain01 s2OtherUncles 2).shares_ ∧
      (AddShare chain01 s2 2).orphanCount_ = (AddShare chain01 s2OtherUncles 2).orphanCount_ :=
  ⟨by decide, by decide, by decide, by decide, by decide, by decide,
    (C8_uncles_do_not_gate chain01 s2 s2OtherUncles 2 (by decide) (by decide) (by decide)
      (by decide)).1,
    (C8_uncles_do_not_gate chain01 s2 s2OtherUncles 2 (by decide) (by decide) (by decide)
      (by decide)).2⟩

/-- C9: every entry `(k, v)` of `shares_` before an `AddShare` call is still an
entry afterwards, the lookup of a stored key still yields the same value (no
deletion, no overwrite), and every key present afterwards was present before
or is `share.hash`. -/
theorem C9_monotonic_growth {τ : Type} (c : Sharechain τ) (s : Share τ) (t : τ) :
    (∀ k v, (k, v) ∈ c.shares_ → (k, v) ∈ (AddShare c s t).shares_) ∧
      (∀ k v, find c.shares_ k = some v → find (AddShare c s t).shares_ k = some v) ∧
      (∀ k, k ∈ keys (AddShare c s t).shares_ → k ∈ keys c.shares_ ∨ k = s.hash) := by
  rcases AddShare_shares_cases c s t with h | ⟨hnew, _, h⟩
  · rw [h]
    exact ⟨fun _ _ hm => hm, fun _ _ hf => hf, fun _ hk => Or.inl hk⟩
  · rw [h]
    refine ⟨fun k v hm => mem_assign_of_mem _ _ _ _ hnew hm, ?_, ?_⟩
    · intro k v hf
      exact find_after_store c s v k hnew hf
    · intro k hk
      rcases (mem_keys_assign _ _ _ _).mp hk with h1 | h1
      · exact Or.inr h1
      · exact Or.inl h1

/-- Witness of C9: adding `s2` to the chain holding `s0` and `s1` keeps the
entry of `s1`, and the key `s2` that appears is the hash of the added share. -/
theorem C9_monotonic_growth_witness :
    ("s1", s1) ∈ chain01.shares_ ∧ ("s1", s1) ∈ (AddShare chain01 s2 2).shares_ ∧
      find chain01.shares_ "s1" = some s1 ∧
      find (AddShare chain01 s2 2).shares_ "s1" = some s1 ∧
      "s2" ∈ keys (AddShare chain01 s2 2).shares_ ∧
      ("s2" ∈ keys chain01.shares_ ∨ "s2" = s2.hash) :=
  ⟨by decide, (C9_monotonic_growth chain01 s2 2).1 "s1" s1 (by decide), by decide,
    (C9_monotonic_growth chain01 s2 2).2.1 "s1" s1 (by decide), by decide,
    (C9_monotonic_growth chain01 s2 2).2.2 "s2" (by decide)⟩

/-- A parent link that holds in a map still holds once a new key is stored. -/
theorem ParentLinked_store {τ : Type} (c : Sharechain τ) (s v : Share τ)
    (hnew : s.hash ∉ keys c.shares_) (h : ParentLinked c.shares_ v) :
    ParentLinked (assign c.shares_ s.hash s) v := by
  rcases h with h | ⟨hk, p, hp, hh, hplain⟩
  · exact Or.inl h
  · exact Or.inr ⟨(mem_keys_assign _ _ _ _).mpr (Or.inr hk), p,
      find_after_store c s p _ hnew hp, hh, hplain⟩

/-- A share that passes the parent and height test is parent-linked in the map
it is stored into. -/
theorem ParentLinked_new {τ : Type} (c : Sharechain τ) (s : Share τ)
    (hnew : s.hash ∉ keys c.shares_) (hok : ParentAndHeightOk c.shares_ s) :
    ParentLinked (assign c.shares_ s.hash s) s := by
  obtain ⟨hp, hh⟩ := hok
  by_cases he : s.parentHash = ""
  · rw [if_pos he] at hh
    exact Or.inl ⟨he, hh⟩
  · rw [if_neg he] at hh
    have hsome : (find c.shares_ s.parentHash).isSome = true := by
      rcases hp with hp | hp
      · exact absurd hp he
      · exact hp
    obtain ⟨p, hfp⟩ := Option.isSome_iff_exists.mp hsome
    simp only [parentHeightPlusOne, hfp, u32add] at hh
    refine Or.inr ⟨(mem_keys_assign _ _ _ _).mpr (Or.inr ((find_isSome_iff _ _).mp hsome)), p,
      find_after_store c s p _ hnew hfp, hh, ?_⟩
    intro hlt
    rw [hh]
    exact Nat.mod_eq_of_lt (by omega)

theorem AddShare_keeps_parent_links {τ : Type} (c : Sharechain τ) (s : Share τ) (t : τ)
    (hinv : ∀ k v, (k, v) ∈ c.shares_ → ParentLinked c.shares_ v) :
    ∀ k v, (k, v) ∈ (AddShare c s t).shares_ → ParentLinked (AddShare c s t).shares_ v := by
  intro k v hmem
  rcases AddShare_shares_cases c s t with h | ⟨hnew, hok, h⟩
  · rw [h] at hmem ⊢
    exact hinv k v hmem
  · rw [h] at hmem ⊢
    rcases mem_assign _ _ _ _ hmem with h2 | h2
    · simp only [Prod.mk.injEq] at h2
      rw [h2.2]
      exact ParentLinked_new c s hnew hok
    · exact ParentLinked_store c s v hnew (hinv k v h2)

theorem addAll_keeps_parent_links {τ : Type} (calls : List (Share τ × τ)) (c : Sharechain τ)
    (hinv : ∀ k v, (k, v) ∈ c.shares_ → ParentLinked c.shares_ v) :
    ∀ k v, (k, v) ∈ (addAll c calls).shares_ → ParentLinked (addAll c calls).shares_ v := by
  induction calls generalizing c with
  | nil => exact hinv
  | cons call rest ih =>
    obtain ⟨s, t⟩ := call
    exact ih (AddShare c s t) (AddShare_keeps_parent_links c s t hinv)

/-- C10: in every state reachable from the empty chain by `AddShare` calls,
each stored share either has an empty `parentHash` and height 0, or has a
`parentHash` that is a key of `shares_` and a height equal to that parent's
height plus 1 (the `uint32_t` sum of line 51: exactly `+ 1` for every parent
height below `2^32 - 1`). -/
theorem C10_parent_link_invariant {τ : Type} (c : Sharechain τ) (k : String) (v : Share τ)
    (hreach : Reachable c) (hmem : (k, v) ∈ c.shares_) :
    (v.parentHash = "" ∧ v.height = 0) ∨
      (v.parentHash ∈ keys c.shares_ ∧
        ∃ p, find c.shares_ v.parentHash = some p ∧
          v.height = (p.height + 1) % 4294967296 ∧
          (p.height < 4294967295 → v.height = p.height + 1)) := by
  obtain ⟨calls, hc⟩ := hreach
  subst hc
  refine addAll_keeps_parent_links calls (Sharechain.empty τ) ?_ k v hmem
  intro k1 v1 h1
  simp [Sharechain.empty] at h1

/-- Witness of C10: in the chain reached by adding `s0`, `s1` and `s2` the
stored share `s2` has the parent `s1`, a key of `shares_`, stored with height
1, and `s2.height = 1 + 1`. -/
theorem C10_parent_link_invariant_witness :
    Reachable (AddShare chain01 s2 2) ∧ ("s2", s2) ∈ (AddShare chain01 s2 2).shares_ ∧
      ((s2.parentHash = "" ∧ s2.height = 0) ∨
        (s2.parentHash ∈ keys (AddShare chain01 s2 2).shares_ ∧
          ∃ p, find (AddShare chain01 s2 2).shares_ s2.parentHash = some p ∧
            s2.height = (p.height + 1) % 4294967296 ∧
            (p.height < 4294967295 → s2.height = p.height + 1))) :=
  ⟨⟨[(s0, 0), (s1, 1), (s2, 2)], rfl⟩, by decide,
    C10_parent_link_invariant (AddShare chain01 s2 2) "s2" s2
      ⟨[(s0, 0), (s1, 1), (s2, 2)], rfl⟩ (by decide)⟩

/-! Root shares commute -/

/-- Two assignments under distinct keys that are both absent commute. -/
theorem assign_comm {V : Type} (m : List (String × V)) (a b : String) (va vb : V)
    (hne : a ≠ b) (ha : a ∉ keys m) (hb : b ∉ keys m) :
    assign (assign m a va) b vb = assign (assign m b vb) a va := by
  have hba : b ≠ a := fun h => hne h.symm
  induction m with
  | nil =>
    simp only [assign]
    by_cases h1 : keyLess b a
    · have h2 : ¬ keyLess a b := fun h => keyLess_irrefl _ (keyLess_trans h h1)
      simp [assign, h1, h2, hne, hba]
    · have h2 : keyLess a b := keyLess_of_not h1 hba
      simp [assign, h1, h2, hne, hba]
  | cons e rest ih =>
    obtain ⟨k, v⟩ := e
    have hak : a ≠ k := fun h => ha (by simp [keys, h])
    have hbk : b ≠ k := fun h => hb (by simp [keys, h])
    have har : a ∉ keys rest := fun h =>
      ha (by simp only [keys, List.map_cons, List.mem_cons]; exact Or.inr h)
    have hbr : b ∉ keys rest := fun h =>
      hb (by simp only [keys, List.map_cons, List.mem_cons]; exact Or.inr h)
    by_cases h1 : keyLess a k <;> by_cases h2 : keyLess b k
    · by_cases h3 : keyLess b a
      · have h4 : ¬ keyLess a b := fun h => keyLess_irrefl _ (keyLess_trans h h3)
        simp [assign, h1, h2, h3, h4, hne, hba, hak, hbk]
      · have h4 : keyLess a b := keyLess_of_not h3 hba
        simp [assign, h1, h2, h3, h4, hne, hba, hak, hbk]
    · have h3 : ¬ keyLess b a := fun h => h2 (keyLess_trans h h1)
      simp [assign, h1, h2, h3, hne, hba, hak, hbk]
    · have h3 : ¬ keyLess a b := fun h => h1 (keyLess_trans h h2)
      simp [assign, h1, h2, h3, hne, hba, hak, hbk]
    · simp only [assign, if_neg h1, if_neg h2, if_neg hak, if_neg hbk]
      rw [ih har hbr]

/-- A new share with empty `parentHash`, height 0 and no uncles is stored and
changes no counter. -/
theorem AddShare_root {τ : Type} (c : Sharechain τ) (s : Share τ) (t : τ)
    (hnew : s.hash ∉ keys c.shares_) (hp : s.parentHash = "") (hh : s.height = 0)
    (hu : s.uncles = []) :
    AddShare c s t = ⟨assign c.shares_ s.hash s, c.uncleCount_, c.orphanCount_⟩ := by
  have hok : ParentAndHeightOk c.shares_ s := ⟨Or.inl hp, by rw [if_pos hp]; exact hh⟩
  rw [AddShare_stored c s t hnew hok, hu]
  rfl

/-- C17: two root shares `a` and `b` (empty `parentHash`, height 0, no uncles)
with distinct hashes that are not yet keys give the same state in either
delivery order; that state contains both shares and `orphanCount_` is
unchanged. -/
theorem C17_root_shares_commute {τ : Type} (c : Sharechain τ) (a b : Share τ) (ta tb : τ)
    (hne : a.hash ≠ b.hash) (ha : a.hash ∉ keys c.shares_) (hb : b.hash ∉ keys c.shares_)
    (hap : a.parentHash = "") (hah : a.height = 0) (hau : a.uncles = [])
    (hbp : b.parentHash = "") (hbh : b.height = 0) (hbu : b.uncles = []) :
    AddShare (AddShare c a ta) b tb = AddShare (AddShare c b tb) a ta ∧
      (a.hash, a) ∈ (AddShare (AddShare c a ta) b tb).shares_ ∧
      (b.hash, b) ∈ (AddShare (AddShare c a ta) b tb).shares_ ∧
      (AddShare (AddShare c a ta) b tb).orphanCount_ = c.orphanCount_ := by
  have hb1 : b.hash ∉ keys (assign c.shares_ a.hash a) := by
    rw [mem_keys_assign]
    rintro (h | h)
    · exact hne h.symm
    · exact hb h
  have ha1 : a.hash ∉ keys (assign c.shares_ b.hash b) := by
    rw [mem_keys_assign]
    rintro (h | h)
    · exact hne h
    · exact ha h
  have e1 : AddShare (AddShare c a ta) b tb =
      ⟨assign (assign c.shares_ a.hash a) b.hash b, c.uncleCount_, c.orphanCount_⟩ := by
    rw [AddShare_root c a ta ha hap hah hau]
    exact AddShare_root _ b tb hb1 hbp hbh hbu
  have e2 : AddShare (AddShare c b tb) a ta =
      ⟨assign (assign c.shares_ b.hash b) a.hash a, c.uncleCount_, c.orphanCount_⟩ := by
    rw [AddShare_root c b tb hb hbp hbh hbu]
    exact AddShare_root _ a ta ha1 hap hah hau
  refine ⟨?_, ?_, ?_, ?_⟩
  · rw [e1, e2, assign_comm c.shares_ a.hash b.hash a b hne ha hb]
  · rw [e1]
    exact mem_assign_of_mem _ _ _ _ hb1 (find_some_mem _ _ _ (find_assign_self _ _ _))
  · rw [e1]
    exact find_some_mem _ _ _ (find_assign_self _ _ _)
  · rw [e1]

/-- Witness of C17: the root shares `a` and `b` delivered to the chain holding
`s0` in both orders. -/
theorem C17_root_shares_commute_witness :
    rootA.hash ≠ rootB.hash ∧ rootA.hash ∉ keys chain0.shares_ ∧
      rootB.hash ∉ keys chain0.shares_ ∧
      AddShare (AddShare chain0 rootA 1) rootB 2 =
        ⟨[("a", rootA), ("b", rootB), ("s0", s0)], 0, 0⟩ ∧
      AddShare (AddShare chain0 rootA 1) rootB 2 = AddShare (AddShare chain0 rootB 2) rootA 1 :=
  ⟨by decide, by decide, by decide, by decide,
    (C17_root_shares_commute chain0 rootA rootB 1 2 (by decide) (by decide) (by decide)
      rfl rfl rfl rfl rfl rfl).1⟩

/-- C18: uncle credit is not deduplicated.  In the call sequence `s0`, `s1`,
`s2`, `s3` from the empty chain, every share is accepted, the only hash ever
listed as an uncle is `s0`, the two different accepted shares `s2` and `s3`
both list it, and `uncleCount_` ends at 2. -/
theorem C18_uncle_credit_not_deduplicated :
    ∃ calls : List (Share Nat × Nat),
      (∀ call ∈ calls, ∀ h ∈ call.1.uncles, h = "s0") ∧
      (∃ a b, a ≠ b ∧ (a.hash, a) ∈ (addAll (Sharechain.empty Nat) calls).shares_ ∧
        (b.hash, b) ∈ (addAll (Sharechain.empty Nat) calls).shares_ ∧
        "s0" ∈ a.uncles ∧ "s0" ∈ b.uncles) ∧
      ("s0", s0) ∈ (addAll (Sharechain.empty Nat) calls).shares_ ∧
      2 ≤ (addAll (Sharechain.empty Nat) calls).uncleCount_ ∧
      (addAll (Sharechain.empty Nat) calls).uncleCount_ = 2 :=
  ⟨[(s0, 0), (s1, 1), (s2, 2), (s3, 3)], by decide, ⟨s2, s3, by decide, by decide, by decide,
    by decide, by decide⟩, by decide, by decide, by decide⟩

/-! Share production -/

/-- C14, the code at a failing input: node 1 has produced one share (height 0)
and its chain is reachable; at its second production event the generated hash
is not yet a key, the built share has an empty `parentHash` and height 1, and
`AddShare` rejects it: it is not stored and one orphan is counted. -/
theorem C14_generated_share_rejected :
    Reachable nodeAfterFirst.sharechain_ ∧
      nodeAfterFirst.sharechain_ =
        ⟨[("share-1-1-1.000000", ⟨"share-1-1-1.000000", 0, 1, "", []⟩)], 0, 0⟩ ∧
      builtShare fixedWhole nodeAfterFirst 2 =
        ⟨"share-1-2-2.000000", 1, 2, "", ["share-1-1-1.000000"]⟩ ∧
      (builtShare fixedWhole nodeAfterFirst 2).hash ∉ keys nodeAfterFirst.sharechain_.shares_ ∧
      (GenerateShare fixedWhole nodeAfterFirst 2).sharechain_ =
        ⟨[("share-1-1-1.000000", ⟨"share-1-1-1.000000", 0, 1, "", []⟩)], 0, 1⟩ ∧
      ¬ Accepted nodeAfterFirst.sharechain_ (builtShare fixedWhole nodeAfterFirst 2) 2 :=
  ⟨⟨[(builtShare fixedWhole (P2PoolApp.start Nat 1) 1, 1)], by decide⟩, by decide, by decide,
    by decide, by decide, by unfold Accepted; decide⟩

/-- C15, the code at a failing input: the chain holds only `s0`, at height 0,
so the maximum height is 0 and the tip is `s0`; the built share has height 1
but an empty `parentHash` instead of `s0`. -/
theorem C15_tip_at_height_zero_not_selected :
    nodeWithS0.sharechain_.shares_ = [("s0", s0)] ∧ s0.height = 0 ∧
      (builtShare fixedWhole nodeWithS0 2).height = 1 ∧
      (builtShare fixedWhole nodeWithS0 2).parentHash = "" ∧
      (builtShare fixedWhole nodeWithS0 2).parentHash ≠ s0.hash := by
  decide

/-- The tip scan returns a height that no entry exceeds; when that height is
above the starting value, the returned hash is the key of an entry at that
height, and otherwise it is the starting hash. -/
theorem tipScan_spec {τ : Type} (l : List (String × Share τ)) (m0 : Nat) (p0 : String) :
    m0 ≤ (tipScan l m0 p0).1 ∧
      (∀ e ∈ l, e.2.height ≤ (tipScan l m0 p0).1) ∧
      (m0 < (tipScan l m0 p0).1 →
        ∃ e ∈ l, (tipScan l m0 p0).2 = e.1 ∧ e.2.height = (tipScan l m0 p0).1) ∧
      ((tipScan l m0 p0).1 = m0 → (tipScan l m0 p0).2 = p0) := by
  induction l generalizing m0 p0 with
  | nil => simp [tipScan]
  | cons e rest ih =>
    obtain ⟨k, v⟩ := e
    simp only [tipScan]
    by_cases h : v.height > m0
    · rw [if_pos h]
      obtain ⟨i1, i2, i3, i4⟩ := ih v.height k
      refine ⟨by omega, ?_, ?_, ?_⟩
      · intro e he
        rcases List.mem_cons.mp he with he1 | he1
        · rw [he1]
          exact i1
        · exact i2 e he1
      · intro _
        by_cases hgt : v.height < (tipScan rest v.height k).1
        · obtain ⟨e, he, h1, h2⟩ := i3 hgt
          exact ⟨e, List.mem_cons_of_mem _ he, h1, h2⟩
        · have heq : (tipScan rest v.height k).1 = v.height := by omega
          exact ⟨(k, v), by simp, i4 heq, heq.symm⟩
      · intro heq
        omega
    · rw [if_neg h]
      obtain ⟨i1, i2, i3, i4⟩ := ih m0 p0
      refine ⟨i1, ?_, ?_, i4⟩
      · intro e he
        rcases List.mem_cons.mp he with he1 | he1
        · rw [he1]
          show v.height ≤ _
          omega
        · exact i2 e he1
      · intro hgt
        obtain ⟨e, he, h1, h2⟩ := i3 hgt
        exact ⟨e, List.mem_cons_of_mem _ he, h1, h2⟩

/-- Where the tip scan works: when some stored share has a height above 0, the
built share has as `parentHash` the key of a stored share of maximum height,
and its height is that maximum plus 1 as a `uint32_t`. -/
theorem builtShare_tip_above_zero {τ : Type} (fixed6 : τ → String) (app : P2PoolApp τ)
    (now : τ) (e0 : String × Share τ) (he0 : e0 ∈ app.sharechain_.shares_)
    (hpos : 0 < e0.2.height) :
    ∃ e ∈ app.sharechain_.shares_,
      (builtShare fixed6 app now).parentHash = e.1 ∧
        (∀ x ∈ app.sharechain_.shares_, x.2.height ≤ e.2.height) ∧
        (builtShare fixed6 app now).height = (e.2.height + 1) % 4294967296 := by
  obtain ⟨_, i2, i3, _⟩ := tipScan_spec app.sharechain_.shares_ 0 ""
  have hne : app.sharechain_.shares_.isEmpty = false := by
    cases hl : app.sharechain_.shares_ with
    | nil => rw [hl] at he0; simp at he0
    | cons _ _ => rfl
  have hgt : 0 < (tipScan app.sharechain_.shares_ 0 "").1 :=
    Nat.lt_of_lt_of_le hpos (i2 e0 he0)
  obtain ⟨e, he, h1, h2⟩ := i3 hgt
  refine ⟨e, he, ?_, ?_, ?_⟩
  · simp only [builtShare, tipParentHash, hne, Bool.false_eq_true, if_false]
    exact h1
  · intro x hx
    rw [h2]
    exact i2 x hx
  · simp only [builtShare, tipHeight, hne, Bool.false_eq_true, if_false, u32add]
    rw [h2]

/-- The uncle scan collects the keys of the first entries that pass the test,
up to two in all. -/
theorem uncleScan_eq {τ : Type} (all : List (String × Share τ)) (H : Nat)
    (l : List (String × Share τ)) (acc : List String) (hacc : acc.length < 2) :
    uncleScan all H l acc = (acc ++ (l.filter (scanTest all H)).map Prod.fst).take 2 := by
  induction l generalizing acc with
  | nil =>
    simp only [uncleScan, List.filter_nil, List.map_nil, List.append_nil]
    exact (List.take_of_length_le (by omega)).symm
  | cons e rest ih =>
    obtain ⟨k, v⟩ := e
    simp only [uncleScan]
    by_cases h1 : v.height < H ∧ u32sub H v.height ≤ 7
    · rw [if_pos h1]
      by_cases h2 : alreadyIncluded all k = true
      · have hf : scanTest all H (k, v) = false := by simp [scanTest, h2]
        rw [if_pos h2, ih acc hacc, List.filter_cons_of_neg (by simp [hf])]
      · have h2f : alreadyIncluded all k = false := by simpa using h2
        have hf : scanTest all H (k, v) = true := by simp [scanTest, h1, h2f]
        rw [if_neg h2, List.filter_cons_of_pos hf, List.map_cons]
        have hsplit : acc ++ k :: List.map Prod.fst (List.filter (scanTest all H) rest) =
            (acc ++ [k]) ++ List.map Prod.fst (List.filter (scanTest all H) rest) := by
          simp
        by_cases h3 : (acc ++ [k]).length ≥ 2
        · have hlen : (acc ++ [k]).length = 2 := by
            simp only [List.length_append, List.length_singleton] at h3 ⊢
            omega
          rw [if_pos h3, hsplit, List.take_append_of_le_length (by omega),
            List.take_of_length_le (by omega)]
        · have hlen : (acc ++ [k]).length < 2 := by omega
          rw [if_neg h3, ih (acc ++ [k]) hlen, hsplit]
    · have hf : scanTest all H (k, v) = false := by simp [scanTest, h1]
      rw [if_neg h1, ih acc hacc, List.filter_cons_of_neg (by simp [hf])]

theorem tipHeight_lt {τ : Type} (shares_ : List (String × Share τ)) :
    tipHeight shares_ < 4294967296 := by
  unfold tipHeight
  split
  · norm_num
  · exact Nat.mod_lt _ (by norm_num)

theorem alreadyIncluded_iff {τ : Type} (shares_ : List (String × Share τ)) (key : String) :
    alreadyIncluded shares_ key = true ↔ ∃ sp ∈ shares_, key ∈ sp.2.uncles := by
  unfold alreadyIncluded
  simp only [List.any_eq_true, beq_iff_eq]
  constructor
  · rintro ⟨sp, hsp, u, hu, rfl⟩
    exact ⟨sp, hsp, hu⟩
  · rintro ⟨sp, hsp, hu⟩
    exact ⟨sp, hsp, key, hu, rfl⟩

/-- On an entry stored under its own hash, and for a height in `uint32_t`
range, the test of the scan is the candidate test of C16. -/
theorem scanTest_eq_candidate {τ : Type} (shares_ : List (String × Share τ)) (H : Nat)
    (hH : H < 4294967296) (e : String × Share τ) (hkey : e.1 = e.2.hash) :
    scanTest shares_ H e = uncleCandidate shares_ H e := by
  unfold scanTest uncleCandidate
  have h1 : (e.2.height < H ∧ u32sub H e.2.height ≤ 7) ↔ (e.2.height < H ∧ H - e.2.height ≤ 7) := by
    unfold u32sub
    constructor
    · rintro ⟨ha, hb⟩
      exact ⟨ha, by omega⟩
    · rintro ⟨ha, hb⟩
      exact ⟨ha, by omega⟩
  have h2 : alreadyIncluded shares_ e.1 =
      shares_.any (fun sp => decide (e.2.hash ∈ sp.2.uncles)) := by
    rw [Bool.eq_iff_iff, alreadyIncluded_iff, hkey]
    simp only [List.any_eq_true, decide_eq_true_eq]
  rw [h2]
  simp only [h1]

theorem sorted_keys_nodup {V : Type} (m : List (String × V)) (h : Sorted m) :
    (keys m).Nodup := by
  unfold Sorted at h
  unfold List.Nodup
  refine List.Pairwise.imp ?_ h
  intro a b hab heq
  rw [heq] at hab
  exact keyLess_irrefl _ hab

/-- C16: for a chain whose entries are stored under their own hash (and whose
map is well formed, keys ascending), with `H` the height `GenerateShare`
computes, the uncle list of the built share is the list of the hashes of the
first `min(2, k)` of the `k` candidates, in the key order of `shares_`: the
stored shares with height below `H`, `H - height <= 7`, and hash in the uncle
list of no stored share.  Hence it has at most 2 entries, no duplicates, and
holds every candidate when fewer than 2 are selected. -/
theorem C16_uncle_selection {τ : Type} (fixed6 : τ → String) (app : P2PoolApp τ) (now : τ)
    (hkey : ∀ e ∈ app.sharechain_.shares_, e.1 = e.2.hash)
    (hsorted : Sorted app.sharechain_.shares_) :
    (builtShare fixed6 app now).uncles =
        ((app.sharechain_.shares_.filter
          (uncleCandidate app.sharechain_.shares_ (tipHeight app.sharechain_.shares_))).take
            2).map (fun e => e.2.hash) ∧
      (builtShare fixed6 app now).uncles.length =
        min 2 (app.sharechain_.shares_.filter
          (uncleCandidate app.sharechain_.shares_ (tipHeight app.sharechain_.shares_))).length ∧
      (builtShare fixed6 app now).uncles.length ≤ 2 ∧
      (builtShare fixed6 app now).uncles.Nodup ∧
      ((builtShare fixed6 app now).uncles.length < 2 →
        ∀ e ∈ app.sharechain_.shares_,
          uncleCandidate app.sharechain_.shares_ (tipHeight app.sharechain_.shares_) e = true →
            e.2.hash ∈ (builtShare fixed6 app now).uncles) := by
  have hfilter : app.sharechain_.shares_.filter
      (scanTest app.sharechain_.shares_ (tipHeight app.sharechain_.shares_)) =
      app.sharechain_.shares_.filter
        (uncleCandidate app.sharechain_.shares_ (tipHeight app.sharechain_.shares_)) :=
    List.filter_congr (fun e he =>
      scanTest_eq_candidate _ _ (tipHeight_lt _) e (hkey e he))
  have hmap : ∀ l : List (String × Share τ), (∀ e ∈ l, e.1 = e.2.hash) →
      l.map Prod.fst = l.map (fun e => e.2.hash) := by
    intro l hl
    exact List.map_congr_left hl
  have hsub : List.Sublist ((app.sharechain_.shares_.filter
      (uncleCandidate app.sharechain_.shares_ (tipHeight app.sharechain_.shares_))).take 2)
      app.sharechain_.shares_ :=
    (List.take_sublist _ _).trans (List.filter_sublist _)
  have hmain : (builtShare fixed6 app now).uncles =
      ((app.sharechain_.shares_.filter
        (uncleCandidate app.sharechain_.shares_ (tipHeight app.sharechain_.shares_))).take
          2).map (fun e => e.2.hash) := by
    show uncleScan _ _ _ [] = _
    rw [uncleScan_eq _ _ _ [] (by simp), List.nil_append, hfilter, ← List.map_take]
    exact hmap _ (fun e he => hkey e (hsub.subset he))
  have hlen : (builtShare fixed6 app now).uncles.length =
      min 2 (app.sharechain_.shares_.filter
        (uncleCandidate app.sharechain_.shares_ (tipHeight app.sharechain_.shares_))).length := by
    rw [hmain, List.length_map, List.length_take]
  refine ⟨hmain, hlen, ?_, ?_, ?_⟩
  · rw [hlen]
    exact Nat.min_le_left _ _
  · rw [hmain, ← hmap _ (fun e he => hkey e (hsub.subset he))]
    exact List.Nodup.sublist (List.Sublist.map Prod.fst hsub) (sorted_keys_nodup _ hsorted)
  · intro hshort e he hc
    have hfl : (app.sharechain_.shares_.filter
        (uncleCandidate app.sharechain_.shares_ (tipHeight app.sharechain_.shares_))).length
        < 2 := by
      rw [hlen] at hshort
      omega
    rw [hmain, List.take_of_length_le (by omega)]
    exact List.mem_map.mpr ⟨e, List.mem_filter.mpr ⟨he, hc⟩, rfl⟩

/-- Witness of C16: the chain holds `a`, `b`, `c` at height 0 and `d` at height
1, none listed as an uncle; the new height is 2, all four are candidates, and
the built share lists the first two in key order, `a` and `b`. -/
theorem C16_uncle_selection_witness :
    (∀ e ∈ nodeFourShares.sharechain_.shares_, e.1 = e.2.hash) ∧
      Sorted nodeFourShares.sharechain_.shares_ ∧
      tipHeight nodeFourShares.sharechain_.shares_ = 2 ∧
      (nodeFourShares.sharechain_.shares_.filter
        (uncleCandidate nodeFourShares.sharechain_.shares_ 2)).length = 4 ∧
      (builtShare fixedWhole nodeFourShares 5).uncles = ["a", "b"] ∧
      (builtShare fixedWhole nodeFourShares 5).uncles =
        ((nodeFourShares.sharechain_.shares_.filter
          (uncleCandidate nodeFourShares.sharechain_.shares_
            (tipHeight nodeFourShares.sharechain_.shares_))).take 2).map (fun e => e.2.hash) :=
  ⟨by decide, by unfold Sorted; decide, by decide, by decide, by decide,
    (C16_uncle_selection fixedWhole nodeFourShares 5 (by decide)
      (by unfold Sorted; decide)).1⟩

/-- On a chain that holds a single share, at height 0, the built share has an
empty `parentHash` and height 1. -/
theorem builtShare_single_root {τ : Type} (fixed6 : τ → String) (app : P2PoolApp τ) (now : τ)
    (h1 : String) (first : Share τ) (hshares : app.sharechain_.shares_ = [(h1, first)])
    (hzero : first.height = 0) :
    (builtShare fixed6 app now).parentHash = "" ∧ (builtShare fixed6 app now).height = 1 := by
  simp [builtShare, tipParentHash, tipHeight, hshares, tipScan, hzero, u32add]

/-- Production on a chain that holds a single share at height 0: every further
share is rejected, the chain keeps its single share and each event counts one
orphan. -/
theorem generateAll_single_root {τ : Type} (fixed6 : τ → String) (later : List τ)
    (app : P2PoolApp τ) (h1 : String) (first : Share τ)
    (hshares : app.sharechain_.shares_ = [(h1, first)]) (hzero : first.height = 0)
    (hty : app.sharechain_.orphanCount_ < 4294967296)
    (hfresh : ∀ b ∈ (generateAll fixed6 app later).2, b.hash ≠ h1) :
    (generateAll fixed6 app later).1.sharechain_.shares_ = [(h1, first)] ∧
      (generateAll fixed6 app later).1.sharechain_.uncleCount_ = app.sharechain_.uncleCount_ ∧
      (generateAll fixed6 app later).1.sharechain_.orphanCount_ =
        (app.sharechain_.orphanCount_ + later.length) % 4294967296 ∧
      (∀ b ∈ (generateAll fixed6 app later).2, b.parentHash = "" ∧ b.height = 1) := by
  induction later generalizing app with
  | nil =>
    refine ⟨hshares, rfl, ?_, ?_⟩
    · exact (Nat.mod_eq_of_lt hty).symm
    · intro b hb
      simp [generateAll] at hb
  | cons now rest ih =>
    simp only [generateAll, List.mem_cons] at hfresh ⊢
    obtain ⟨hp, hh⟩ := builtShare_single_root fixed6 app now h1 first hshares hzero
    have hnew : (builtShare fixed6 app now).hash ∉ keys app.sharechain_.shares_ := by
      rw [hshares]
      simp only [keys, List.map_cons, List.map_nil, List.mem_singleton]
      exact hfresh _ (Or.inl rfl)
    have hbad : ¬ ParentAndHeightOk app.sharechain_.shares_ (builtShare fixed6 app now) := by
      rintro ⟨_, h2⟩
      rw [if_pos hp, hh] at h2
      exact absurd h2 (by decide)
    have hstep : (GenerateShare fixed6 app now).sharechain_ =
        ⟨app.sharechain_.shares_, app.sharechain_.uncleCount_,
          u32add app.sharechain_.orphanCount_ 1⟩ :=
      AddShare_rejected _ _ now hnew hbad
    have hlt : (GenerateShare fixed6 app now).sharechain_.orphanCount_ < 4294967296 := by
      rw [hstep]
      exact Nat.mod_lt _ (by norm_num)
    obtain ⟨r1, r2, r3, r4⟩ := ih (GenerateShare fixed6 app now)
      (by rw [hstep]; exact hshares) hlt (fun b hb => hfresh b (Or.inr hb))
    refine ⟨r1, ?_, ?_, ?_⟩
    · rw [r2, hstep]
    · rw [r3, hstep]
      simp only [u32add, List.length_cons]
      omega
    · rintro b (hb | hb)
      · rw [hb]
        exact ⟨hp, hh⟩
      · exact r4 b hb

/-- C19: a node starts with the empty Sharechain and runs `n >= 1` consecutive
`GenerateShare` events (times `first :: later`, `n = later.length + 1`) with no
reception and pairwise distinct generated hashes.  Then `shares_` holds exactly
one share, the first one built, at height 0 with empty `parentHash`; every
later built share has empty `parentHash` and height 1; and `orphanCount_` is
`n - 1` (as a `uint32_t`: exactly `n - 1` below `2^32`). -/
theorem C19_single_node_production {τ : Type} (fixed6 : τ → String) (app : P2PoolApp τ)
    (first : τ) (later : List τ) (hempty : app.sharechain_ = Sharechain.empty τ)
    (hdistinct : ((generateAll fixed6 app (first :: later)).2.map Share.hash).Nodup) :
    (generateAll fixed6 app (first :: later)).1.sharechain_.shares_ =
        [(generatedHash fixed6 app.nodeId_ (u32add app.shareCount_ 1) first,
          ⟨generatedHash fixed6 app.nodeId_ (u32add app.shareCount_ 1) first, 0, first, "",
            []⟩)] ∧
      (generateAll fixed6 app (first :: later)).2.head? =
        some ⟨generatedHash fixed6 app.nodeId_ (u32add app.shareCount_ 1) first, 0, first, "",
          []⟩ ∧
      (∀ b ∈ (generateAll fixed6 app (first :: later)).2.tail,
        b.parentHash = "" ∧ b.height = 1) ∧
      (generateAll fixed6 app (first :: later)).1.sharechain_.orphanCount_ =
        later.length % 4294967296 ∧
      (later.length < 4294967296 →
        (generateAll fixed6 app (first :: later)).1.sharechain_.orphanCount_ = later.length) := by
  have hb : builtShare fixed6 app first =
      ⟨generatedHash fixed6 app.nodeId_ (u32add app.shareCount_ 1) first, 0, first, "", []⟩ := by
    simp [builtShare, hempty, Sharechain.empty, tipHeight, tipParentHash, uncleScan]
  have hstep : (GenerateShare fixed6 app first).sharechain_ =
      ⟨[(generatedHash fixed6 app.nodeId_ (u32add app.shareCount_ 1) first,
        ⟨generatedHash fixed6 app.nodeId_ (u32add app.shareCount_ 1) first, 0, first, "",
          []⟩)], 0, 0⟩ := by
    show AddShare app.sharechain_ (builtShare fixed6 app first) first = _
    rw [hb, hempty]
    simp [AddShare, Sharechain.empty, find, assign, countUncles]
  simp only [generateAll, List.map_cons, List.nodup_cons, List.mem_map, not_exists, not_and]
    at hdistinct
  have hfresh : ∀ b ∈ (generateAll fixed6 (GenerateShare fixed6 app first) later).2,
      b.hash ≠ generatedHash fixed6 app.nodeId_ (u32add app.shareCount_ 1) first := by
    intro b hbm heq
    apply hdistinct.1 b hbm
    rw [heq, hb]
  obtain ⟨r1, _, r3, r4⟩ := generateAll_single_root fixed6 later (GenerateShare fixed6 app first)
    _ _ (by rw [hstep]) rfl (by rw [hstep]; norm_num) hfresh
  have horph : (generateAll fixed6 app (first :: later)).1.sharechain_.orphanCount_ =
      later.length % 4294967296 := by
    simp only [generateAll]
    rw [r3, hstep]
    simp
  refine ⟨?_, ?_, ?_, horph, ?_⟩
  · simp only [generateAll]
    exact r1
  · simp only [generateAll, List.head?_cons, hb]
  · simp only [generateAll, List.tail_cons]
    exact r4
  · intro hlt
    rw [horph]
    exact Nat.mod_eq_of_lt hlt

/-- Witness of C19: node 1 produces at the times 1, 2 and 3 from the empty
chain; the three generated hashes are distinct, the chain holds only the first
share, the two later shares have empty `parentHash` and height 1, and
`orphanCount_` is 2. -/
theorem C19_single_node_production_witness :
    (P2PoolApp.start Nat 1).sharechain_ = Sharechain.empty Nat ∧
      ((generateAll fixedWhole (P2PoolApp.start Nat 1) [1, 2, 3]).2.map Share.hash).Nodup ∧
      (generateAll fixedWhole (P2PoolApp.start Nat 1) [1, 2, 3]).2 =
        [⟨"share-1-1-1.000000", 0, 1, "", []⟩,
         ⟨"share-1-2-2.000000", 1, 2, "", ["share-1-1-1.000000"]⟩,
         ⟨"share-1-3-3.000000", 1, 3, "", ["share-1-1-1.000000"]⟩] ∧
      (generateAll fixedWhole (P2PoolApp.start Nat 1) [1, 2, 3]).1.sharechain_.shares_ =
        [("share-1-1-1.000000", ⟨"share-1-1-1.000000", 0, 1, "", []⟩)] ∧
      (generateAll fixedWhole (P2PoolApp.start Nat 1) [1, 2, 3]).1.sharechain_.orphanCount_ = 2 :=
  ⟨rfl, by decide, by decide,
    (C19_single_node_production fixedWhole (P2PoolApp.start Nat 1) 1 [2, 3] rfl (by decide)).1,
    (C19_single_node_production fixedWhole (P2PoolApp.start Nat 1) 1 [2, 3] rfl
      (by decide)).2.2.2.2 (by decide)⟩

/-! The stream reader and the fields of a message -/

theorem splitFields_ne_nil (cs : List Char) : splitFields cs ≠ [] := by
  cases cs with
  | nil => simp [splitFields]
  | cons c cs =>
    simp only [splitFields]
    split
    · simp
    · split <;> simp

/-- The first field is what `untilDelim` reads; the other fields are those of
the characters after the delimiter. -/
theorem splitFields_eq (cs : List Char) :
    splitFields cs =
      match (untilDelim cs).2 with
      | none => [(untilDelim cs).1]
      | some r => (untilDelim cs).1 :: splitFields r := by
  induction cs with
  | nil => simp [splitFields, untilDelim]
  | cons c cs ih =>
    by_cases hc : c = '|'
    · simp [splitFields, untilDelim, hc]
    · simp only [splitFields, untilDelim, if_neg hc]
      rw [ih]
      cases (untilDelim cs).2 <;> simp

theorem untilDelim_length (cs r : List Char) (h : (untilDelim cs).2 = some r) :
    r.length < cs.length := by
  induction cs with
  | nil => simp [untilDelim] at h
  | cons c cs ih =>
    by_cases hc : c = '|'
    · simp only [untilDelim, if_pos hc, Option.some.injEq] at h
      rw [← h]
      simp
    · simp only [untilDelim, if_neg hc] at h
      have := ih h
      simp only [List.length_cons]
      omega

theorem getline_bad (r : List Char) (str : String) :
    getline ⟨r, false⟩ str = (⟨r, false⟩, str, false) := by
  simp [getline]

theorem getline_last (cs : List Char) (str : String) (h : (untilDelim cs).2 = none) :
    getline ⟨cs, true⟩ str =
      (⟨[], false⟩, String.mk (untilDelim cs).1, !(untilDelim cs).1.isEmpty) := by
  rcases hu : untilDelim cs with ⟨f, _ | r⟩
  · simp [getline, hu]
  · rw [hu] at h
    simp at h

theorem getline_more (cs r : List Char) (str : String) (h : (untilDelim cs).2 = some r) :
    getline ⟨cs, true⟩ str = (⟨r, true⟩, String.mk (untilDelim cs).1, true) := by
  rcases hu : untilDelim cs with ⟨f, _ | r1⟩
  · rw [hu] at h
    simp at h
  · rw [hu] at h
    simp only [Option.some.injEq] at h
    simp [getline, hu, h]

theorem mk_eq_empty_iff (f : List Char) : String.mk f = "" ↔ f = [] := by
  constructor
  · intro h
    have := congrArg String.data h
    simpa using this
  · intro h
    rw [h]

theorem dropTrailingEmpty_cons (a : String) (l : List String) (hl : l ≠ []) :
    dropTrailingEmpty (a :: l) = a :: dropTrailingEmpty l := by
  obtain ⟨b, l2, rfl⟩ := List.exists_cons_of_ne_nil hl
  unfold dropTrailingEmpty
  simp only [List.getLast?_cons_cons, List.dropLast_cons₂]
  split <;> rfl

theorem readUncles_bad (fuel : Nat) (r : List Char) (token : String) (acc : List String) :
    readUncles fuel ⟨r, false⟩ token acc = acc := by
  cases fuel with
  | zero => rfl
  | succ n => simp [readUncles, getline_bad]

/-- With enough iterations allowed, the uncle loop appends the remaining fields
of the message, except a last empty one: the loop ends because `getline`
fails, not because the bound is reached. -/
theorem readUncles_eq (fuel : Nat) (r : List Char) (token : String) (acc : List String)
    (hfuel : r.length + 2 ≤ fuel) :
    readUncles fuel ⟨r, true⟩ token acc =
      acc ++ dropTrailingEmpty ((splitFields r).map String.mk) := by
  induction fuel generalizing r token acc with
  | zero => omega
  | succ n ih =>
    rcases hu : (untilDelim r).2 with _ | r1
    · have hg := getline_last r token hu
      have hs : splitFields r = [(untilDelim r).1] := by
        rw [splitFields_eq, hu]
      rw [hs]
      by_cases he : (untilDelim r).1 = []
      · simp [readUncles, hg, he, dropTrailingEmpty]
      · have hne : ¬ String.mk (untilDelim r).1 = "" := fun h => he ((mk_eq_empty_iff _).mp h)
        have hiso : (untilDelim r).1.isEmpty = false := by
          cases hx : (untilDelim r).1 with
          | nil => exact absurd hx he
          | cons _ _ => rfl
        simp only [readUncles, hg, hiso, Bool.not_false, if_true, readUncles_bad, List.map_cons,
          List.map_nil, dropTrailingEmpty, List.getLast?_singleton, Option.some.injEq, if_neg hne]
    · have hg := getline_more r r1 token hu
      have hs : splitFields r = (untilDelim r).1 :: splitFields r1 := by
        rw [splitFields_eq, hu]
      have hlen := untilDelim_length r r1 hu
      have hne : (splitFields r1).map String.mk ≠ [] := by
        intro h
        exact splitFields_ne_nil r1 (List.map_eq_nil_iff.mp h)
      simp only [readUncles, hg, if_true]
      rw [ih r1 _ _ (by omega), hs, List.map_cons, dropTrailingEmpty_cons _ _ hne]
      simp

theorem stoi_empty : stoi "" = none := by decide

theorem dropTrailingEmpty_nil : dropTrailingEmpty [] = [] := by decide

/-- `DeserializeShare` computes what `decodeFields` describes on the fields of
the message, for every input. -/
theorem DeserializeShare_eq_decodeFields {τ : Type} (stod : String → Option τ)
    (data : String) : DeserializeShare stod data = decodeFields stod data := by
  unfold DeserializeShare decodeFields
  rcases h0 : (untilDelim data.data).2 with _ | r0
  · have hs0 : splitFields data.data = [(untilDelim data.data).1] := by
      rw [splitFields_eq, h0]
    simp [getline_last _ _ h0, getline_bad, hs0, stoi_empty]
  · have hs0 : splitFields data.data = (untilDelim data.data).1 :: splitFields r0 := by
      rw [splitFields_eq, h0]
    rcases h1 : (untilDelim r0).2 with _ | r1
    · have hs1 : splitFields r0 = [(untilDelim r0).1] := by
        rw [splitFields_eq, h1]
      simp only [getline_more _ _ _ h0, getline_last _ _ h1, getline_bad, hs0, hs1,
        List.map_cons, List.map_nil, List.getD_cons_succ, List.getD_cons_zero, List.getD_nil,
        readUncles_bad, List.drop_succ_cons, List.drop_nil, dropTrailingEmpty_nil]
    · have hs1 : splitFields r0 = (untilDelim r0).1 :: splitFields r1 := by
        rw [splitFields_eq, h1]
      rcases h2 : (untilDelim r1).2 with _ | r2
      · have hs2 : splitFields r1 = [(untilDelim r1).1] := by
          rw [splitFields_eq, h2]
        simp only [getline_more _ _ _ h0, getline_more _ _ _ h1, getline_last _ _ h2,
          getline_bad, hs0, hs1, hs2,
          List.map_cons, List.map_nil, List.getD_cons_succ, List.getD_cons_zero, List.getD_nil,
          readUncles_bad, List.drop_succ_cons, List.drop_nil, dropTrailingEmpty_nil]
      · have hs2 : splitFields r1 = (untilDelim r1).1 :: splitFields r2 := by
          rw [splitFields_eq, h2]
        rcases h3 : (untilDelim r2).2 with _ | r3
        · have hs3 : splitFields r2 = [(untilDelim r2).1] := by
            rw [splitFields_eq, h3]
          simp only [getline_more _ _ _ h0, getline_more _ _ _ h1, getline_more _ _ _ h2,
            getline_last _ _ h3, getline_bad, hs0, hs1, hs2, hs3,
            List.map_cons, List.map_nil, List.getD_cons_succ, List.getD_cons_zero,
            List.getD_nil, readUncles_bad, List.drop_succ_cons, List.drop_nil,
            dropTrailingEmpty_nil]
        · have hs3 : splitFields r2 = (untilDelim r2).1 :: splitFields r3 := by
            rw [splitFields_eq, h3]
          simp only [getline_more _ _ _ h0, getline_more _ _ _ h1, getline_more _ _ _ h2,
            getline_more _ _ _ h3, hs0, hs1, hs2, hs3,
            List.map_cons, List.getD_cons_succ, List.getD_cons_zero,
            List.drop_succ_cons, List.drop_zero,
            readUncles_eq _ r3 _ _ (Nat.le_refl _), List.nil_append]

/-! Decimal text of a `uint32_t` -/

theorem digitChar_facts :
    ∀ k < 10, (Nat.digitChar k).isDigit = true ∧ (Nat.digitChar k).toNat - 48 = k := by
  decide

theorem isDigit_range (c : Char) (h : c.isDigit = true) : 48 ≤ c.toNat ∧ c.toNat ≤ 57 := by
  unfold Char.isDigit at h
  simp only [Bool.and_eq_true, decide_eq_true_eq] at h
  exact ⟨h.1, h.2⟩

theorem isDigit_ne_delim (c : Char) (h : c.isDigit = true) : c ≠ '|' := by
  intro hc
  rw [hc] at h
  exact absurd h (by decide)

/-- The digits that `Nat.toDigitsCore` puts in front of the accumulator: a
non-empty list of decimal digits whose value is the number. -/
theorem toDigitsCore_spec (fuel n : Nat) (ds : List Char) (h : n < fuel) :
    ∃ ds0, Nat.toDigitsCore 10 fuel n ds = ds0 ++ ds ∧ ds0 ≠ [] ∧
      (∀ c ∈ ds0, c.isDigit = true) ∧ digitsValue ds0 = n := by
  induction fuel generalizing n ds with
  | zero => omega
  | succ fuel ih =>
    have hd := digitChar_facts (n % 10) (Nat.mod_lt _ (by norm_num))
    simp only [Nat.toDigitsCore]
    by_cases h0 : n / 10 = 0
    · rw [if_pos h0]
      refine ⟨[Nat.digitChar (n % 10)], rfl, by simp, ?_, ?_⟩
      · intro c hc
        rw [List.mem_singleton.mp hc]
        exact hd.1
      · simp only [digitsValue, List.foldl_cons, List.foldl_nil, hd.2]
        omega
    · rw [if_neg h0]
      obtain ⟨ds1, e1, _, e3, e4⟩ := ih (n / 10) (Nat.digitChar (n % 10) :: ds) (by omega)
      refine ⟨ds1 ++ [Nat.digitChar (n % 10)], by rw [e1]; simp, by simp, ?_, ?_⟩
      · intro c hc
        rcases List.mem_append.mp hc with hc1 | hc1
        · exact e3 c hc1
        · rw [List.mem_singleton.mp hc1]
          exact hd.1
      · unfold digitsValue at e4 ⊢
        rw [List.foldl_append, e4]
        simp only [List.foldl_cons, List.foldl_nil, hd.2]
        omega

theorem toString_digits (n : Nat) :
    (toString n).data ≠ [] ∧ (∀ c ∈ (toString n).data, c.isDigit = true) ∧
      digitsValue (toString n).data = n := by
  obtain ⟨ds0, e1, e2, e3, e4⟩ := toDigitsCore_spec (n + 1) n [] (by omega)
  have hdata : (toString n).data = ds0 := by
    show Nat.toDigitsCore 10 (n + 1) n [] = ds0
    rw [e1, List.append_nil]
  rw [hdata]
  exact ⟨e2, e3, e4⟩

/-- `std::stoi` reads back the decimal text of every value up to `INT_MAX`. -/
theorem stoi_toString (n : Nat) (hn : n < 2147483648) : stoi (toString n) = some (n : Int) := by
  obtain ⟨h1, h2, h3⟩ := toString_digits n
  obtain ⟨c, cs, hcs⟩ := List.exists_cons_of_ne_nil h1
  have hc : c.isDigit = true := h2 c (by rw [hcs]; simp)
  have hrange := isDigit_range c hc
  have hsp : ¬ isSpace c = true := by
    unfold isSpace
    simp only [Bool.or_eq_true, Bool.and_eq_true, decide_eq_true_eq]
    omega
  have hminus : c ≠ '-' := by
    intro h
    rw [h] at hc
    exact absurd hc (by decide)
  have hplus : c ≠ '+' := by
    intro h
    rw [h] at hc
    exact absurd hc (by decide)
  have hbody : (toString n).data.dropWhile isSpace = c :: cs := by
    rw [hcs]
    exact List.dropWhile_cons_of_neg hsp
  have htake : (c :: cs).takeWhile Char.isDigit = c :: cs := by
    rw [List.takeWhile_eq_self_iff]
    intro x hx
    exact h2 x (by rw [hcs]; exact hx)
  have hval : digitsValue (c :: cs) = n := by
    rw [← hcs]
    exact h3
  unfold stoi
  simp only [hbody, List.head?_cons, Option.some.injEq, hminus, hplus, or_self, if_false, htake,
    hval]
  have hnot : ¬ ((n : Int) < -2147483648 ∨ 2147483647 < (n : Int)) := by omega
  simp only [List.cons_ne_nil, if_false, hnot]

theorem toU32_natCast (n : Nat) (hn : n < 4294967296) : toU32 (n : Int) = n := by
  unfold toU32
  omega

/-! The fields of a serialized share -/

theorem splitFields_clean (f : List Char) (hf : '|' ∉ f) : splitFields f = [f] := by
  induction f with
  | nil => rfl
  | cons c f ih =>
    have hc : c ≠ '|' := fun h => hf (by simp [h])
    have hf2 : '|' ∉ f := fun h => hf (List.mem_cons_of_mem _ h)
    simp only [splitFields, if_neg hc, ih hf2]

theorem splitFields_append (f rest : List Char) (hf : '|' ∉ f) :
    splitFields (f ++ '|' :: rest) = f :: splitFields rest := by
  induction f with
  | nil => simp [splitFields]
  | cons c f ih =>
    have hc : c ≠ '|' := fun h => hf (by simp [h])
    have hf2 : '|' ∉ f := fun h => hf (List.mem_cons_of_mem _ h)
    rw [List.cons_append, splitFields, if_neg hc, ih hf2]

theorem splitFields_joined (f : List Char) (us : List String) (hf : '|' ∉ f)
    (hus : ∀ u ∈ us, NoDelim u) :
    splitFields (f ++ (us.map (fun u => '|' :: u.data)).flatten) =
      f :: us.map String.data := by
  induction us generalizing f with
  | nil => simp [splitFields_clean f hf]
  | cons u us ih =>
    have hu : '|' ∉ u.data := hus u (by simp)
    simp only [List.map_cons, List.flatten_cons, List.cons_append]
    rw [splitFields_append f _ hf, ih u.data hu (fun x hx => hus x (List.mem_cons_of_mem _ hx))]

theorem uncles_foldl_data (us : List String) (init : String) :
    (us.foldl (fun ss uncle => ss ++ "|" ++ uncle) init).data =
      init.data ++ (us.map (fun u => '|' :: u.data)).flatten := by
  induction us generalizing init with
  | nil => simp
  | cons u us ih =>
    have hbar : ("|" : String).data = ['|'] := rfl
    simp only [List.foldl_cons, ih, String.data_append, List.map_cons, List.flatten_cons, hbar]
    simp

theorem toString_noDelim (n : Nat) : '|' ∉ (toString n).data := by
  intro h
  exact isDigit_ne_delim _ ((toString_digits n).2.1 _ h) rfl

/-- The fields of a serialized share whose strings contain no delimiter. -/
theorem splitFields_SerializeShare {τ : Type} (fmt : τ → String) (s : Share τ)
    (hhash : NoDelim s.hash) (hparent : NoDelim s.parentHash)
    (huncles : ∀ u ∈ s.uncles, NoDelim u) (hfmt : NoDelim (fmt s.timestamp)) :
    (splitFields (SerializeShare fmt s).data).map String.mk =
      s.hash :: toString s.height :: fmt s.timestamp :: s.parentHash :: s.uncles := by
  have hbar : ("|" : String).data = ['|'] := rfl
  unfold SerializeShare
  rw [uncles_foldl_data]
  simp only [String.data_append, hbar, List.append_assoc, List.singleton_append,
    List.cons_append, List.nil_append]
  rw [splitFields_append _ _ hhash, splitFields_append _ _ (toString_noDelim _),
    splitFields_append _ _ hfmt, splitFields_joined _ _ hparent huncles]
  simp only [List.map_cons, List.map_map]
  have hid : (String.mk ∘ String.data) = id := by
    funext x
    rfl
  rw [hid, List.map_id]

/-- What `DeserializeShare` returns on a serialized share whose strings contain
no delimiter and whose height is at most `INT_MAX`: every field but the
timestamp is read back, except that a last empty uncle is lost; the timestamp
is what `std::stod` reads from the text of the timestamp. -/
theorem DeserializeShare_SerializeShare {τ : Type} (fmt : τ → String)
    (stod : String → Option τ) (s : Share τ)
    (hhash : NoDelim s.hash) (hparent : NoDelim s.parentHash)
    (huncles : ∀ u ∈ s.uncles, NoDelim u) (hfmt : NoDelim (fmt s.timestamp))
    (hheight : s.height < 2147483648) :
    DeserializeShare stod (SerializeShare fmt s) =
      (stod (fmt s.timestamp)).map
        (fun t => ⟨s.hash, s.height, t, s.parentHash, dropTrailingEmpty s.uncles⟩) := by
  rw [DeserializeShare_eq_decodeFields]
  unfold decodeFields
  simp only [splitFields_SerializeShare fmt s hhash hparent huncles hfmt,
    List.getD_cons_succ, List.getD_cons_zero, List.drop_succ_cons, List.drop_zero,
    stoi_toString s.height hheight, toU32_natCast s.height (by omega)]
  cases stod (fmt s.timestamp) <;> rfl

theorem dropTrailingEmpty_of_last (us : List String) (h : us.getLast? ≠ some "") :
    dropTrailingEmpty us = us := by
  unfold dropTrailingEmpty
  rw [if_neg h]

/-- C11 as stated fails.  The share with the single empty uncle string has no
delimiter in any string; it is written `h|0|0||` and read back without the
uncle.  The share with height `2^31` is written `h|2147483648|0|` and
`std::stoi` throws on it. -/
theorem C11_counterexample :
    NoDelim emptyUncleShare.hash ∧ NoDelim emptyUncleShare.parentHash ∧
      (∀ u ∈ emptyUncleShare.uncles, NoDelim u) ∧
      SerializeShare fmtWhole emptyUncleShare = "h|0|0||" ∧
      DeserializeShare stodWhole (SerializeShare fmtWhole emptyUncleShare) =
        some ⟨"h", 0, 0, "", []⟩ ∧
      DeserializeShare stodWhole (SerializeShare fmtWhole emptyUncleShare) ≠
        some emptyUncleShare ∧
      highShare.height < 4294967296 ∧
      SerializeShare fmtWhole highShare = "h|2147483648|0|" ∧
      DeserializeShare stodWhole (SerializeShare fmtWhole highShare) = none := by
  decide

/-- C11 amended: for every share whose hash, parentHash and uncle strings
contain no delimiter, whose last uncle string, if any, is not empty, whose
height is below `2^31`, and whose timestamp is read back by `std::stod` from
its stream text, `DeserializeShare (SerializeShare s)` is `s`, field for field
and with the uncles in order (empty uncle list and empty uncle strings before
the last included). -/
theorem C11_round_trip {τ : Type} (fmt : τ → String) (stod : String → Option τ) (s : Share τ)
    (hhash : NoDelim s.hash) (hparent : NoDelim s.parentHash)
    (huncles : ∀ u ∈ s.uncles, NoDelim u) (hlast : s.uncles.getLast? ≠ some "")
    (hheight : s.height < 2147483648) (hfmt : NoDelim (fmt s.timestamp))
    (htime : stod (fmt s.timestamp) = some s.timestamp) :
    DeserializeShare stod (SerializeShare fmt s) = some s := by
  rw [DeserializeShare_SerializeShare fmt stod s hhash hparent huncles hfmt hheight, htime,
    Option.map_some', dropTrailingEmpty_of_last _ hlast]

/-- Witness of C11 amended: `s2` (one uncle), `s0` (no uncle, empty parent) and
a share whose first uncle string is empty are read back unchanged. -/
theorem C11_round_trip_witness :
    SerializeShare fmtWhole s2 = "s2|2|2|s1|s0" ∧
      DeserializeShare stodWhole (SerializeShare fmtWhole s2) = some s2 ∧
      DeserializeShare stodWhole (SerializeShare fmtWhole s0) = some s0 ∧
      DeserializeShare stodWhole
        (SerializeShare fmtWhole (⟨"h", 7, 3, "p", ["", "u"]⟩ : Share Nat)) =
          some ⟨"h", 7, 3, "p", ["", "u"]⟩ :=
  ⟨by decide,
    C11_round_trip fmtWhole stodWhole s2 (by decide) (by decide) (by decide) (by decide)
      (by decide) (by decide) (by decide),
    C11_round_trip fmtWhole stodWhole s0 (by decide) (by decide) (by decide) (by decide)
      (by decide) (by decide) (by decide),
    C11_round_trip fmtWhole stodWhole ⟨"h", 7, 3, "p", ["", "u"]⟩ (by decide) (by decide)
      (by decide) (by decide) (by decide) (by decide) (by decide)⟩

/-- C12 as stated fails: none of the four inputs named by the claim is
rejected.  With two fields the second is read twice, as height and as
timestamp; with three fields the parent hash is empty; `5abc` is read as 5 and
`-1` as `4294967295`. -/
theorem C12_counterexample :
    DeserializeShare stodWhole "abc|5" = some ⟨"abc", 5, 5, "", []⟩ ∧
      DeserializeShare stodWhole "abc|5|1.0" = some ⟨"abc", 5, 1, "", []⟩ ∧
      DeserializeShare stodWhole "h|5abc|1.0|p" = some ⟨"h", 5, 1, "p", []⟩ ∧
      DeserializeShare stodWhole "h|-1|1.0|p" = some ⟨"h", 4294967295, 1, "p", []⟩ := by
  decide

/-- C12 amended: `DeserializeShare` fails exactly when `std::stoi` throws on the
second field of the input (the empty text when there is no second field) or
`std::stod` throws on the third field (the second field again when there is no
third).  In particular every input with fewer than 2 fields fails, and an
input whose second field is empty fails. -/
theorem C12_decode_rejection {τ : Type} (stod : String → Option τ) (data : String) :
    (DeserializeShare stod data = none ↔
        stoi (fieldOr data 1 "") = none ∨
          stod (fieldOr data 2 (fieldOr data 1 "")) = none) ∧
      ((splitFields data.data).length < 2 → DeserializeShare stod data = none) ∧
      (fieldOr data 1 "" = "" → DeserializeShare stod data = none) := by
  have hiff : DeserializeShare stod data = none ↔
      stoi (fieldOr data 1 "") = none ∨ stod (fieldOr data 2 (fieldOr data 1 "")) = none := by
    rw [DeserializeShare_eq_decodeFields]
    change (match stoi (fieldOr data 1 "") with
      | none => none
      | some h =>
        match stod (fieldOr data 2 (fieldOr data 1 "")) with
        | none => none
        | some timestamp =>
          some (⟨fieldOr data 0 "", toU32 h, timestamp, fieldOr data 3 "",
            dropTrailingEmpty (((splitFields data.data).map String.mk).drop 4)⟩ : Share τ)) =
        none ↔ _
    cases stoi (fieldOr data 1 "") with
    | none => simp
    | some h =>
      cases stod (fieldOr data 2 (fieldOr data 1 "")) with
      | none => simp
      | some t => simp
  have hempty : fieldOr data 1 "" = "" → DeserializeShare stod data = none := by
    intro h
    rw [hiff, h]
    exact Or.inl stoi_empty
  refine ⟨hiff, ?_, hempty⟩
  intro hlen
  apply hempty
  unfold fieldOr
  rcases hs : splitFields data.data with _ | ⟨f0, _ | ⟨f1, fs⟩⟩
  · rfl
  · rfl
  · rw [hs] at hlen
    simp only [List.length_cons] at hlen
    omega

/-- Witness of C12 amended: the inputs `abc` (one field), `abc|` (empty second
field) and `h|x5|1.0|p` (no leading digit) are rejected. -/
theorem C12_decode_rejection_witness :
    (splitFields "abc".data).length < 2 ∧
      DeserializeShare stodWhole "abc" = none ∧
      fieldOr "abc|" 1 "" = "" ∧
      DeserializeShare stodWhole "abc|" = none ∧
      stoi (fieldOr "h|x5|1.0|p" 1 "") = none ∧
      DeserializeShare stodWhole "h|x5|1.0|p" = none :=
  ⟨by decide, (C12_decode_rejection stodWhole "abc").2.1 (by decide), by decide,
    (C12_decode_rejection stodWhole "abc|").2.2 (by decide), by decide,
    (C12_decode_rejection stodWhole "h|x5|1.0|p").1.mpr (Or.inl (by decide))⟩

/-! Reception -/

theorem HandleReceive_eq {τ : Type} (stod : String → Option τ) (now : τ)
    (packets : List String) (c : Sharechain τ) :
    (HandleReceive stod c now packets).1 =
        addAll c (decodedCalls stod now (decodablePrefix stod packets)) ∧
      ((HandleReceive stod c now packets).2 = true ↔
        ∃ p ∈ packets, packetShare stod p = none) := by
  induction packets generalizing c with
  | nil => simp [HandleReceive, decodedCalls, decodablePrefix, addAll]
  | cons p rest ih =>
    rcases h : packetShare stod p with _ | sh
    · have h2 : DeserializeShare stod (String.mk (p.data.take 1024)) = none := h
      simp only [HandleReceive, h2, decodablePrefix, decodedCalls]
      refine ⟨?_, ?_⟩
      · rw [List.takeWhile_cons_of_neg (by simp [h])]
        rfl
      · simp only [true_iff]
        exact ⟨p, by simp, h⟩
    · have h2 : DeserializeShare stod (String.mk (p.data.take 1024)) = some sh := h
      obtain ⟨ih1, ih2⟩ := ih (AddShare c sh now)
      simp only [HandleReceive, h2]
      refine ⟨?_, ?_⟩
      · rw [ih1]
        unfold decodablePrefix decodedCalls
        rw [List.takeWhile_cons_of_pos (by simp [h]), List.filterMap_cons_some (by rw [h]; rfl)]
        rfl
      · rw [ih2]
        constructor
        · rintro ⟨q, hq, hn⟩
          exact ⟨q, List.mem_cons_of_mem _ hq, hn⟩
        · rintro ⟨q, hq, hn⟩
          rcases List.mem_cons.mp hq with hq1 | hq1
          · rw [hq1, h] at hn
            exact Option.noConfusion hn
          · exact ⟨q, hq1, hn⟩

theorem decodablePrefix_all {τ : Type} (stod : String → Option τ) (packets : List String)
    (hall : ∀ p ∈ packets, packetShare stod p ≠ none) :
    decodablePrefix stod packets = packets := by
  unfold decodablePrefix
  rw [List.takeWhile_eq_self_iff]
  intro p hp
  exact Option.isSome_iff_ne_none.mpr (hall p hp)

/-- C13 as stated fails: the first packet `abc` does not decode and the second
is the well-formed root share `s0`.  Applying `AddShare` to the packets that
decode would store `s0`; `HandleReceive` is left by the exception at the first
packet and the chain stays empty. -/
theorem C13_counterexample :
    packetShare stodWhole "abc" = none ∧
      packetShare stodWhole "s0|0|0|" = some s0 ∧
      addAll (Sharechain.empty Nat) (decodedCalls stodWhole 0 ["abc", "s0|0|0|"]) =
        ⟨[("s0", s0)], 0, 0⟩ ∧
      HandleReceive stodWhole (Sharechain.empty Nat) 0 ["abc", "s0|0|0|"] =
        (Sharechain.empty Nat, true) := by
  decide

/-- C13 amended: `HandleReceive` leaves the Sharechain obtained by applying
`AddShare`, in order, to the packets that come before the first one that fails
to decode; a packet that fails to decode changes nothing in the chain, but its
exception leaves `HandleReceive` (there is no handler), so the packets after it
are not handled.  When every packet decodes, the result is `AddShare` applied
to all of them in order and no exception leaves. -/
theorem C13_receive_until_failure {τ : Type} (stod : String → Option τ) (c : Sharechain τ)
    (now : τ) (packets : List String) :
    (HandleReceive stod c now packets).1 =
        addAll c (decodedCalls stod now (decodablePrefix stod packets)) ∧
      ((HandleReceive stod c now packets).2 = true ↔
        ∃ p ∈ packets, packetShare stod p = none) ∧
      ((∀ p ∈ packets, packetShare stod p ≠ none) →
        HandleReceive stod c now packets = (addAll c (decodedCalls stod now packets), false)) := by
  obtain ⟨h1, h2⟩ := HandleReceive_eq stod now packets c
  refine ⟨h1, h2, ?_⟩
  intro hall
  have hfalse : (HandleReceive stod c now packets).2 = false := by
    cases hb : (HandleReceive stod c now packets).2 with
    | false => rfl
    | true =>
      obtain ⟨p, hp, hn⟩ := h2.mp hb
      exact absurd hn (hall p hp)
  rw [decodablePrefix_all stod packets hall] at h1
  exact Prod.ext h1 hfalse

/-- Witness of C13 amended: the packets `s0`, `s1` both decode and are both
added; with the undecodable packet `abc` between them only `s0` is added and
the exception leaves. -/
theorem C13_receive_until_failure_witness :
    (∀ p ∈ ["s0|0|0|", "s1|1|1|s0"], packetShare stodWhole p ≠ none) ∧
      HandleReceive stodWhole (Sharechain.empty Nat) 1 ["s0|0|0|", "s1|1|1|s0"] =
        (⟨[("s0", s0), ("s1", s1)], 0, 0⟩, false) ∧
      decodablePrefix stodWhole ["s0|0|0|", "abc", "s1|1|1|s0"] = ["s0|0|0|"] ∧
      (HandleReceive stodWhole (Sharechain.empty Nat) 1 ["s0|0|0|", "abc", "s1|1|1|s0"]).1 =
        ⟨[("s0", s0)], 0, 0⟩ ∧
      (HandleReceive stodWhole (Sharechain.empty Nat) 1 ["s0|0|0|", "abc", "s1|1|1|s0"]).2 =
        true :=
  ⟨by decide,
    (C13_receive_until_failure stodWhole (Sharechain.empty Nat) 1
      ["s0|0|0|", "s1|1|1|s0"]).2.2 (by decide),
    by decide,
    (C13_receive_until_failure stodWhole (Sharechain.empty Nat) 1
      ["s0|0|0|", "abc", "s1|1|1|s0"]).1,
    (C13_receive_until_failure stodWhole (Sharechain.empty Nat) 1
      ["s0|0|0|", "abc", "s1|1|1|s0"]).2.1.mpr ⟨"abc", by decide, by decide⟩⟩

/-! The timestamp plays no part in validation -/

theorem countUncles_congr {τ : Type} (m1 m2 : List (String × Share τ)) (height : Nat)
    (us : List String) (n : Nat)
    (h : ∀ x, (find m1 x).map Share.height = (find m2 x).map Share.height) :
    countUncles m1 height us n = countUncles m2 height us n := by
  induction us generalizing n with
  | nil => rfl
  | cons u rest ih =>
    have hc : ((find m1 u).isSome && IsUncleValid m1 u height) =
        ((find m2 u).isSome && IsUncleValid m2 u height) := by
      have hu := h u
      unfold IsUncleValid
      cases h1 : find m1 u <;> cases h2 : find m2 u <;> simp [h1, h2] at hu ⊢
      rw [hu]
    simp only [countUncles, hc, ih]

theorem find_assign_height {τ : Type} (m : List (String × Share τ)) (k : String)
    (a b : Share τ) (hh : a.height = b.height) (x : String) :
    (find (assign m k a) x).map Share.height = (find (assign m k b) x).map Share.height := by
  by_cases hx : x = k
  · rw [hx, find_assign_self, find_assign_self]
    simp [hh]
  · rw [find_assign_ne _ _ _ _ hx, find_assign_ne _ _ _ _ hx]

/-- Two shares that agree on hash, height, parentHash and uncles are treated
alike by `AddShare`: same keys, same `orphanCount_`, same `uncleCount_`. -/
theorem AddShare_same_validation {τ : Type} (c : Sharechain τ) (a b : Share τ) (t : τ)
    (hhash : a.hash = b.hash) (hheight : a.height = b.height)
    (hparent : a.parentHash = b.parentHash) (huncles : a.uncles = b.uncles) :
    keys (AddShare c a t).shares_ = keys (AddShare c b t).shares_ ∧
      (AddShare c a t).orphanCount_ = (AddShare c b t).orphanCount_ ∧
      (AddShare c a t).uncleCount_ = (AddShare c b t).uncleCount_ := by
  by_cases h1 : a.hash ∈ keys c.shares_
  · have h2 : b.hash ∈ keys c.shares_ := hhash ▸ h1
    rw [AddShare_duplicate c a t h1, AddShare_duplicate c b t h2]
    exact ⟨rfl, rfl, rfl⟩
  · have h2 : b.hash ∉ keys c.shares_ := hhash ▸ h1
    by_cases hok : ParentAndHeightOk c.shares_ a
    · have hok2 := (ParentAndHeightOk_congr c.shares_ a b hheight hparent).mp hok
      rw [AddShare_stored c a t h1 hok, AddShare_stored c b t h2 hok2]
      refine ⟨?_, rfl, ?_⟩
      · simp only
        rw [hhash]
        exact keys_assign_value _ _ _ _
      · simp only
        rw [hhash, hheight, huncles]
        exact countUncles_congr _ _ _ _ _ (find_assign_height _ _ a b hheight)
    · have hok2 : ¬ ParentAndHeightOk c.shares_ b := fun h3 =>
        hok ((ParentAndHeightOk_congr c.shares_ a b hheight hparent).mpr h3)
      rw [AddShare_rejected c a t h1 hok, AddShare_rejected c b t h2 hok2]
      exact ⟨rfl, rfl, rfl⟩

theorem dropTrailingEmpty_of_nonempty (us : List String) (h : ∀ u ∈ us, u ≠ "") :
    dropTrailingEmpty us = us := by
  apply dropTrailingEmpty_of_last
  intro hl
  exact h "" (List.mem_of_getLast?_eq_some hl) rfl

/-- C20 as stated fails: the share has no delimiter in any string, a single
non-empty uncle and height 1, but its timestamp is the subnormal value
`1e-310`; it is written `h|1|1e-310|p|u`, `std::stod` throws on the timestamp
field, and `DeserializeShare` does not return a share. -/
theorem C20_counterexample :
    NoDelim tinyTimeShare.hash ∧ NoDelim tinyTimeShare.parentHash ∧
      (∀ u ∈ tinyTimeShare.uncles, NoDelim u) ∧ (∀ u ∈ tinyTimeShare.uncles, u ≠ "") ∧
      tinyTimeShare.height < 2147483648 ∧
      SerializeShare fmtSample tinyTimeShare = "h|1|1e-310|p|u" ∧
      stodSample "1e-310" = none ∧
      DeserializeShare stodSample (SerializeShare fmtSample tinyTimeShare) = none := by
  decide

/-- C20 amended: take a share whose hash, parentHash and uncle strings contain
no delimiter, whose uncle strings are all non-empty and whose height is below
`2^31`; the stream text of its timestamp contains no delimiter.  Then
`DeserializeShare (SerializeShare s)` fails when `std::stod` throws on the text
of the timestamp, and otherwise it succeeds and returns a share with the same
hash, height, parentHash and uncle list, in order; so `AddShare` gives, for the
decoded share and for `s`, the same keys of `shares_`, the same `orphanCount_`
and the same `uncleCount_`. -/
theorem C20_validation_round_trip {τ : Type} (fmt : τ → String) (stod : String → Option τ)
    (s : Share τ) (hhash : NoDelim s.hash) (hparent : NoDelim s.parentHash)
    (huncles : ∀ u ∈ s.uncles, NoDelim u) (hnonempty : ∀ u ∈ s.uncles, u ≠ "")
    (hheight : s.height < 2147483648) (hfmt : NoDelim (fmt s.timestamp)) :
    (stod (fmt s.timestamp) = none →
        DeserializeShare stod (SerializeShare fmt s) = none) ∧
      (stod (fmt s.timestamp) ≠ none →
        ∃ d, DeserializeShare stod (SerializeShare fmt s) = some d ∧
          d.hash = s.hash ∧ d.height = s.height ∧ d.parentHash = s.parentHash ∧
          d.uncles = s.uncles ∧
          ∀ (c : Sharechain τ) (t : τ),
            keys (AddShare c d t).shares_ = keys (AddShare c s t).shares_ ∧
              (AddShare c d t).orphanCount_ = (AddShare c s t).orphanCount_ ∧
              (AddShare c d t).uncleCount_ = (AddShare c s t).uncleCount_) := by
  have hdec := DeserializeShare_SerializeShare fmt stod s hhash hparent huncles hfmt hheight
  constructor
  · intro hnone
    rw [hdec, hnone]
    rfl
  · intro htime
    obtain ⟨ts, hts⟩ := Option.ne_none_iff_exists'.mp htime
    refine ⟨⟨s.hash, s.height, ts, s.parentHash, s.uncles⟩, ?_, rfl, rfl, rfl, rfl, ?_⟩
    · rw [hdec, hts, Option.map_some', dropTrailingEmpty_of_nonempty _ hnonempty]
    · intro c t
      exact AddShare_same_validation c _ s t rfl rfl rfl rfl

/-- Witness of C20 amended.  The share `s2` with timestamp 2 is written
`s2|2|2|s1|s0`, `std::stod` accepts the text `2`, and the share read back has
the hash, height, parentHash and uncles of `s2` and is treated by `AddShare` as
`s2` is.  The share with the timestamp `1e-310` meets the same conditions on
its strings and height, `std::stod` throws on `1e-310`, and decoding fails. -/
theorem C20_validation_round_trip_witness :
    (NoDelim s2Sample.hash ∧ NoDelim s2Sample.parentHash ∧
        (∀ u ∈ s2Sample.uncles, NoDelim u) ∧ (∀ u ∈ s2Sample.uncles, u ≠ "") ∧
        s2Sample.height < 2147483648 ∧ NoDelim (fmtSample s2Sample.timestamp) ∧
        stodSample (fmtSample s2Sample.timestamp) ≠ none ∧
        SerializeShare fmtSample s2Sample = "s2|2|2|s1|s0" ∧
        DeserializeShare stodSample (SerializeShare fmtSample s2Sample) = some s2Sample) ∧
      (∃ d, DeserializeShare stodSample (SerializeShare fmtSample s2Sample) = some d ∧
        d.hash = s2Sample.hash ∧ d.height = s2Sample.height ∧
        d.parentHash = s2Sample.parentHash ∧ d.uncles = s2Sample.uncles ∧
        ∀ (c : Sharechain SampleDouble) (t : SampleDouble),
          keys (AddShare c d t).shares_ = keys (AddShare c s2Sample t).shares_ ∧
            (AddShare c d t).orphanCount_ = (AddShare c s2Sample t).orphanCount_ ∧
            (AddShare c d t).uncleCount_ = (AddShare c s2Sample t).uncleCount_) ∧
      (NoDelim (fmtSample tinyTimeShare.timestamp) ∧
        stodSample (fmtSample tinyTimeShare.timestamp) = none) ∧
      DeserializeShare stodSample (SerializeShare fmtSample tinyTimeShare) = none :=
  ⟨by decide,
    (C20_validation_round_trip fmtSample stodSample s2Sample (by decide) (by decide)
      (by decide) (by decide) (by decide) (by decide)).2 (by decide),
    by decide,
    (C20_validation_round_trip fmtSample stodSample tinyTimeShare (by decide) (by decide)
      (by decide) (by decide) (by decide) (by decide)).1 (by decide)⟩

end P2Pool
